import Mathlib

/-! # PA04 – assembly-integrated reduction pass (`main.c`)

A shallow embedding of the two inline-assembly regions of `main` and of the C
glue around them.  Registers hold 32-bit words, modelled as natural numbers
below `2 ^ 32` with explicit reduction modulo `2 ^ 32`; `toInt32` gives the
signed (two's-complement) reading of a word, which is what the C `int`
variables and `printf("%d")` observe.  Memory is a map from the byte address
of an aligned 32-bit word to that word.
-/

namespace PA04

/-! ## Words and their signed reading -/

/-- Signed two's-complement value of a 32-bit word. -/
def toInt32 (w : Nat) : Int :=
  if w < 2 ^ 31 then (w : Int) else (w : Int) - 2 ^ 32

/-- The 32-bit word that represents an integer (reduced modulo `2 ^ 32`). -/
def ofInt32 (x : Int) : Nat :=
  (x % 2 ^ 32).toNat

/-- The integer is representable as a C `int` (signed 32-bit). -/
def IsInt32 (x : Int) : Prop :=
  -2 ^ 31 ≤ x ∧ x < 2 ^ 31

instance (x : Int) : Decidable (IsInt32 x) := by
  unfold IsInt32; infer_instance

/-- The most negative `int`, `INT32_MIN`. -/
def INT32_MIN : Int := -2 ^ 31

/-! ## Memory -/

/-- Store of one word: `str v, [a]`. -/
def store (mem : Nat → Nat) (a v : Nat) : Nat → Nat :=
  fun x => if x = a then v else mem x

/-- The `len` consecutive words of an `int` array that starts at byte address `base`. -/
def readArray (mem : Nat → Nat) (base len : Nat) : List Nat :=
  (List.range len).map (fun i => mem (base + 4 * i))

/-- Memory after the words `vs` have been stored consecutively from byte address `base`. -/
def writeArray (mem : Nat → Nat) (base : Nat) : List Nat → Nat → Nat
  | [] => mem
  | v :: vs => writeArray (store mem base v) (base + 4) vs

/-! ## Condition flags -/

/-- The ARM condition flags (APSR.NZCV). -/
structure Flags where
  N : Bool
  Z : Bool
  C : Bool
  V : Bool

/-- Flags set by `cmp a, b` and by `subs _, a, b`: those of the subtraction `a - b`. -/
def subFlags (a b : Nat) : Flags :=
  let r := (a + (2 ^ 32 - b)) % 2 ^ 32
  { N := decide (2 ^ 31 ≤ r)
    Z := decide (r = 0)
    C := decide (b ≤ a)
    V := (decide (2 ^ 31 ≤ a) != decide (2 ^ 31 ≤ b)) &&
         (decide (2 ^ 31 ≤ r) != decide (2 ^ 31 ≤ a)) }

/-- Condition `eq`: Z set. -/
def condEQ (f : Flags) : Bool := f.Z

/-- Condition `ge` (signed): N equals V. -/
def condGE (f : Flags) : Bool := f.N == f.V

/-- Condition `lt` (signed): N differs from V. -/
def condLT (f : Flags) : Bool := f.N != f.V

/-- Condition `le` (signed): Z set, or N differs from V. -/
def condLE (f : Flags) : Bool := f.Z || (f.N != f.V)

/-! ## Assembly block #1 -/

/-- Machine state seen by assembly block #1: memory, the named operands
`rp tp n sum cnt maxv orv xorv thr`, the scratch registers `r2 r6`, and the flags. -/
structure State where
  mem : Nat → Nat
  rp : Nat
  tp : Nat
  n : Nat
  sum : Nat
  cnt : Nat
  maxv : Nat
  orv : Nat
  xorv : Nat
  thr : Nat
  r2 : Nat
  r6 : Nat
  flags : Flags

/-- One pass through the loop body of block #1, from the `ldr` after the exit
test up to and including `subs n, n, #1` (lines 85–120). -/
def loopBody (s : State) : State :=
  -- ldr r2, [rp], #4
  let s := { s with r2 := s.mem s.rp, rp := (s.rp + 4) % 2 ^ 32 }
  -- mov r6, r2
  let s := { s with r6 := s.r2 }
  -- cmp r6, #0
  let s := { s with flags := subFlags s.r6 0 }
  -- bge 3f ; rsb r6, r6, #0
  let s := { s with r6 := if condGE s.flags then s.r6 else (2 ^ 32 - s.r6) % 2 ^ 32 }
  -- 3: str r6, [tp], #4
  let s := { s with mem := store s.mem s.tp s.r6, tp := (s.tp + 4) % 2 ^ 32 }
  -- add sum, sum, r6
  let s := { s with sum := (s.sum + s.r6) % 2 ^ 32 }
  -- cmp r6, thr
  let s := { s with flags := subFlags s.r6 s.thr }
  -- blt 4f ; add cnt, cnt, #1
  let s := { s with cnt := if condLT s.flags then s.cnt else (s.cnt + 1) % 2 ^ 32 }
  -- 4: cmp r6, maxv
  let s := { s with flags := subFlags s.r6 s.maxv }
  -- ble 5f ; mov maxv, r6
  let s := { s with maxv := if condLE s.flags then s.maxv else s.r6 }
  -- 5: orr orv, orv, r6
  let s := { s with orv := s.orv ||| s.r6 }
  -- eor xorv, xorv, r6
  let s := { s with xorv := s.xorv ^^^ s.r6 }
  -- subs n, n, #1
  { s with n := (s.n + (2 ^ 32 - 1)) % 2 ^ 32, flags := subFlags s.n 1 }

/-- Assembly block #1 (lines 79–135): at label `1` compare `n` with zero and
leave through `beq 2f`, otherwise run the body and branch back.  `fuel` bounds
the number of times label `1` is reached; `none` means the bound was hit. -/
def asmBlock1 : Nat → State → Option State
  | 0, _ => none
  | fuel + 1, s =>
    -- 1: cmp n, #0
    let s := { s with flags := subFlags s.n 0 }
    -- beq 2f
    if condEQ s.flags then some s
    -- ... ; b 1b
    else asmBlock1 fuel (loopBody s)

/-- Registers on entry to block #1 as `main` sets them up (lines 67–77):
`rp = readings`, `tp = transformed`, `n = len`, the five accumulators zero,
`thr = threshold`.  Memory, scratch registers and flags come from `s0`. -/
def block1Entry (s0 : State) (readings transformed len threshold : Nat) : State :=
  { s0 with
    rp := readings, tp := transformed, n := len,
    sum := 0, cnt := 0, maxv := 0, orv := 0, xorv := 0,
    thr := threshold }

/-! ## Assembly block #2 -/

/-- Machine state seen by assembly block #2: memory, the two pointer operands
and the registers `r0`–`r3`.  No instruction of the block sets the flags. -/
structure State2 where
  mem : Nat → Nat
  xor_ptr : Nat
  par_ptr : Nat
  r0 : Nat
  r1 : Nat
  r2 : Nat
  r3 : Nat

/-- First three instructions of block #2 (lines 157–161): load `combined_xor`,
mask its low bit, store it to `final_parity`. -/
def block2Parity (s : State2) : State2 :=
  -- ldr r0, [xor_ptr]
  let s := { s with r0 := s.mem s.xor_ptr }
  -- and r1, r0, #1
  let s := { s with r1 := s.r0 &&& 1 }
  -- str r1, [par_ptr]
  { s with mem := store s.mem s.par_ptr s.r1 }

/-- The four extra ALU instructions of block #2 (lines 164–167). -/
def block2Extra (s : State2) : State2 :=
  -- mvn r2, r0
  let s := { s with r2 := s.r0 ^^^ (2 ^ 32 - 1) }
  -- eor r3, r0, r2
  let s := { s with r3 := s.r0 ^^^ s.r2 }
  -- orr r3, r3, r1
  let s := { s with r3 := s.r3 ||| s.r1 }
  -- bic r3, r3, r1
  { s with r3 := s.r3 &&& (s.r1 ^^^ (2 ^ 32 - 1)) }

/-- Assembly block #2 (lines 155–172). -/
def asmBlock2 (s : State2) : State2 :=
  block2Extra (block2Parity s)

/-! ## Functional summary of block #1 -/

/-- Word left in `r6` by `mov r6, r2; cmp r6, #0; bge 3f; rsb r6, r6, #0`:
the operand itself when it is non-negative as a signed word, else `0 - w`. -/
def absWord (w : Nat) : Nat :=
  if w < 2 ^ 31 then w else (2 ^ 32 - w) % 2 ^ 32

/-- The five accumulator registers of block #1. -/
structure Acc where
  sum : Nat
  cnt : Nat
  maxv : Nat
  orv : Nat
  xorv : Nat
deriving DecidableEq, Repr

/-- The accumulator registers of a machine state. -/
def State.acc (s : State) : Acc :=
  { sum := s.sum, cnt := s.cnt, maxv := s.maxv, orv := s.orv, xorv := s.xorv }

/-- Effect of one loop iteration on the accumulators, for the reading word `w`. -/
def accStep (thr : Nat) (a : Acc) (w : Nat) : Acc :=
  { sum := (a.sum + absWord w) % 2 ^ 32
    cnt := if toInt32 (absWord w) < toInt32 thr then a.cnt else (a.cnt + 1) % 2 ^ 32
    maxv := if toInt32 (absWord w) ≤ toInt32 a.maxv then a.maxv else absWord w
    orv := a.orv ||| absWord w
    xorv := a.xorv ^^^ absWord w }

/-! ## The pass as `main` invokes it -/

/-- Two address ranges `[a, a + la)` and `[b, b + lb)` do not overlap. -/
def NoOverlap (a la b lb : Nat) : Prop :=
  a + la ≤ b ∨ b + lb ≤ a

instance (a la b lb : Nat) : Decidable (NoOverlap a la b lb) := by
  unfold NoOverlap; infer_instance

/-- Well-formed input of the pass: `R` is a sequence of `int` values and
`threshold` an `int`; memory holds `R` as an array at byte address `readings`;
the `readings` and `transformed` arrays lie inside the 32-bit address space and
do not overlap. -/
def ValidInput (mem : Nat → Nat) (readings transformed : Nat) (R : List Int)
    (threshold : Int) : Prop :=
  (∀ r ∈ R, IsInt32 r) ∧ IsInt32 threshold ∧
  readArray mem readings R.length = R.map ofInt32 ∧
  readings + 4 * R.length ≤ 2 ^ 32 ∧ transformed + 4 * R.length ≤ 2 ^ 32 ∧
  NoOverlap readings (4 * R.length) transformed (4 * R.length)

instance (mem : Nat → Nat) (readings transformed : Nat) (R : List Int) (threshold : Int) :
    Decidable (ValidInput mem readings transformed R threshold) := by
  unfold ValidInput; infer_instance

/-- Block #1 entered the way `main` enters it, for an array of `len` readings
at `readings`, an output array at `transformed`, and the given threshold. -/
def runPass (fuel : Nat) (s0 : State) (readings transformed len : Nat) (threshold : Int) :
    Option State :=
  asmBlock1 fuel (block1Entry s0 readings transformed len (ofInt32 threshold))

/-- The `transformed` array after the pass, read as C `int` values. -/
def transformedOf (s : State) (transformed len : Nat) : List Int :=
  (readArray s.mem transformed len).map toInt32

/-! ## `main` -/

/-- Addresses of the objects of `main` that are accessed through memory. -/
structure Frame where
  readings : Nat
  transformed : Nat
  combined_xor : Nat
  final_parity : Nat

/-- The objects of the frame lie inside the address space and are pairwise disjoint. -/
def Frame.Valid (fr : Frame) : Prop :=
  fr.readings + 32 ≤ 2 ^ 32 ∧ fr.transformed + 32 ≤ 2 ^ 32 ∧
  fr.combined_xor + 4 ≤ 2 ^ 32 ∧ fr.final_parity + 4 ≤ 2 ^ 32 ∧
  NoOverlap fr.readings 32 fr.transformed 32 ∧
  NoOverlap fr.readings 32 fr.combined_xor 4 ∧
  NoOverlap fr.readings 32 fr.final_parity 4 ∧
  NoOverlap fr.transformed 32 fr.combined_xor 4 ∧
  NoOverlap fr.transformed 32 fr.final_parity 4 ∧
  NoOverlap fr.combined_xor 4 fr.final_parity 4

instance (fr : Frame) : Decidable fr.Valid := by
  unfold Frame.Valid; infer_instance

/-- Initialiser of `readings` (line 37). -/
def mainReadings : List Int := [5, -3, 12, 6, 0, -1, 7, 4]

/-- Initialiser of `threshold` (line 42). -/
def mainThreshold : Int := 5

/-- The values `main` prints (lines 181–193). -/
structure Report where
  transformed : List Int
  total_sum : Int
  above_threshold_count : Int
  max_value : Int
  combined_or : Int
  combined_xor : Int
  final_parity : Int
deriving DecidableEq, Repr

/-- The function `main` up to its report: initialise the arrays and result
variables, run block #1, copy the registers back, run block #2, and collect
what is printed.  `s0` and `t0` give the memory and the register contents
that the two blocks find on entry and do not depend on. -/
def main (fuel : Nat) (fr : Frame) (s0 : State) (t0 : State2) : Option Report :=
  -- int readings[] = { 5, -3, 12, 6, 0, -1, 7, 4 }; len = 8
  let mem := writeArray s0.mem fr.readings (mainReadings.map ofInt32)
  let len := mainReadings.length
  -- int combined_xor = 0; int final_parity = 0
  let mem := store (store mem fr.combined_xor 0) fr.final_parity 0
  match runPass fuel { s0 with mem := mem } fr.readings fr.transformed len mainThreshold with
  | none => none
  | some s1 =>
    -- total_sum = sum; ... ; combined_xor = xorv
    let mem := store s1.mem fr.combined_xor s1.xorv
    let s2 := asmBlock2 { t0 with mem := mem, xor_ptr := fr.combined_xor,
                                  par_ptr := fr.final_parity }
    some
      { transformed := (readArray s2.mem fr.transformed len).map toInt32
        total_sum := toInt32 s1.sum
        above_threshold_count := toInt32 s1.cnt
        max_value := toInt32 s1.maxv
        combined_or := toInt32 s1.orv
        combined_xor := toInt32 (s2.mem fr.combined_xor)
        final_parity := toInt32 (s2.mem fr.final_parity) }

/-! ## Iterations of the loop -/

/-- State after `k` trips round the loop of block #1, each trip being the
exit test `cmp n, #0` (not taken) followed by the body and `b 1b`. -/
def loopIter : Nat → State → State
  | 0, s => s
  | k + 1, s => loopIter k (loopBody { s with flags := subFlags s.n 0 })

/-- The 32-bit wrapping negation `0 - x` of an `int`, read back as signed. -/
def negInt32 (x : Int) : Int :=
  toInt32 (ofInt32 (-x))

/-! ## Concrete inputs used to exercise the theorems -/

/-- A register file with every register and flag cleared and memory `mem`. -/
def stateWith (mem : Nat → Nat) : State :=
  { mem := mem, rp := 0, tp := 0, n := 0, sum := 0, cnt := 0, maxv := 0, orv := 0,
    xorv := 0, thr := 0, r2 := 0, r6 := 0, flags := ⟨false, false, false, false⟩ }

/-- Memory that is zero except for the `int` array `R` at byte address `base`. -/
def memWith (base : Nat) (R : List Int) : Nat → Nat :=
  writeArray (fun _ => 0) base (R.map ofInt32)

/-- A state about to run one iteration on the reading `INT32_MIN`, with
`threshold = INT32_MIN`, `max_value = 7` and `above_threshold_count = 3`. -/
def stateAtMin : State :=
  { stateWith (memWith 4096 [INT32_MIN]) with
    rp := 4096, tp := 8192, thr := ofInt32 INT32_MIN, maxv := 7, cnt := 3 }

/-! # Theorems -/

theorem p31 : (2 : Nat) ^ 31 = 2147483648 := by norm_num
theorem p32 : (2 : Nat) ^ 32 = 4294967296 := by norm_num
theorem q31 : (2 : Int) ^ 31 = 2147483648 := by norm_num
theorem q32 : (2 : Int) ^ 32 = 4294967296 := by norm_num

theorem toInt32_cases (w : Nat) :
    (w < 2147483648 ∧ toInt32 w = (w : Int)) ∨
      (2147483648 ≤ w ∧ toInt32 w = (w : Int) - 4294967296) := by
  unfold toInt32
  simp only [p31, q32]
  split_ifs with h
  · exact Or.inl ⟨h, rfl⟩
  · exact Or.inr ⟨by omega, rfl⟩

theorem condLT_subFlags (a b : Nat) (ha : a < 2 ^ 32) (hb : b < 2 ^ 32) :
    condLT (subFlags a b) = true ↔ toInt32 a < toInt32 b := by
  have ta := toInt32_cases a
  have tb := toInt32_cases b
  unfold condLT subFlags
  simp only [p31, p32] at *
  cases hA : decide (2147483648 ≤ a) <;> cases hB : decide (2147483648 ≤ b) <;>
    cases hR : decide (2147483648 ≤ (a + (4294967296 - b)) % 4294967296) <;>
    simp only [decide_eq_true_eq, decide_eq_false_iff_not] at hA hB hR <;>
    simp <;> omega

theorem condGE_subFlags (a b : Nat) (ha : a < 2 ^ 32) (hb : b < 2 ^ 32) :
    condGE (subFlags a b) = true ↔ toInt32 b ≤ toInt32 a := by
  have ta := toInt32_cases a
  have tb := toInt32_cases b
  unfold condGE subFlags
  simp only [p31, p32] at *
  cases hA : decide (2147483648 ≤ a) <;> cases hB : decide (2147483648 ≤ b) <;>
    cases hR : decide (2147483648 ≤ (a + (4294967296 - b)) % 4294967296) <;>
    simp only [decide_eq_true_eq, decide_eq_false_iff_not] at hA hB hR <;>
    simp <;> omega

theorem condLE_subFlags (a b : Nat) (ha : a < 2 ^ 32) (hb : b < 2 ^ 32) :
    condLE (subFlags a b) = true ↔ toInt32 a ≤ toInt32 b := by
  have ta := toInt32_cases a
  have tb := toInt32_cases b
  unfold condLE subFlags
  simp only [p31, p32] at *
  cases hA : decide (2147483648 ≤ a) <;> cases hB : decide (2147483648 ≤ b) <;>
    cases hR : decide (2147483648 ≤ (a + (4294967296 - b)) % 4294967296) <;>
    cases hZ : decide ((a + (4294967296 - b)) % 4294967296 = 0) <;>
    simp only [decide_eq_true_eq, decide_eq_false_iff_not] at hA hB hR hZ <;>
    simp <;> omega

theorem condEQ_subFlags (a b : Nat) (ha : a < 2 ^ 32) (hb : b < 2 ^ 32) :
    condEQ (subFlags a b) = true ↔ a = b := by
  unfold condEQ subFlags
  simp only [p32, decide_eq_true_eq] at *
  omega


theorem absWord_lt (w : Nat) (hw : w < 2 ^ 32) : absWord w < 2 ^ 32 := by
  unfold absWord
  simp only [p31, p32] at *
  split_ifs <;> omega

theorem loopBody_eq (s : State) (hw : s.mem s.rp < 2 ^ 32) (ht : s.thr < 2 ^ 32)
    (hm : s.maxv < 2 ^ 32) :
    loopBody s =
      { mem := store s.mem s.tp (absWord (s.mem s.rp))
        rp := (s.rp + 4) % 2 ^ 32
        tp := (s.tp + 4) % 2 ^ 32
        n := (s.n + (2 ^ 32 - 1)) % 2 ^ 32
        sum := (s.sum + absWord (s.mem s.rp)) % 2 ^ 32
        cnt := if toInt32 (absWord (s.mem s.rp)) < toInt32 s.thr then s.cnt
               else (s.cnt + 1) % 2 ^ 32
        maxv := if toInt32 (absWord (s.mem s.rp)) ≤ toInt32 s.maxv then s.maxv
                else absWord (s.mem s.rp)
        orv := s.orv ||| absWord (s.mem s.rp)
        xorv := s.xorv ^^^ absWord (s.mem s.rp)
        thr := s.thr
        r2 := s.mem s.rp
        r6 := absWord (s.mem s.rp)
        flags := subFlags s.n 1 } := by
  have habs := absWord_lt _ hw
  have h0 : condGE (subFlags (s.mem s.rp) 0) = true ↔ s.mem s.rp < 2 ^ 31 := by
    rw [condGE_subFlags _ _ hw (by norm_num)]
    have := toInt32_cases (s.mem s.rp)
    have z : toInt32 0 = 0 := by decide
    rw [z]; simp only [p31]; omega
  have h1 := condLT_subFlags _ _ habs ht
  have h2 := condLE_subFlags _ _ habs hm
  have ha : (if condGE (subFlags (s.mem s.rp) 0) = true then s.mem s.rp
      else (2 ^ 32 - s.mem s.rp) % 2 ^ 32) = absWord (s.mem s.rp) := by
    unfold absWord; simp only [h0]
  unfold loopBody
  dsimp only
  rw [ha]
  simp only [h1, h2]


/-! ## The loop of block #1 -/

theorem readArray_zero (mem : Nat → Nat) (base : Nat) : readArray mem base 0 = [] := rfl

theorem readArray_succ (mem : Nat → Nat) (base k : Nat) :
    readArray mem base (k + 1) = mem base :: readArray mem (base + 4) k := by
  unfold readArray
  rw [List.range_succ_eq_map, List.map_cons, List.map_map]
  simp only [Nat.mul_zero, Nat.add_zero, List.cons.injEq, true_and]
  apply List.map_congr_left
  intro i _
  simp only [Function.comp, Nat.succ_eq_add_one]
  congr 1
  omega

theorem readArray_store (mem : Nat → Nat) (base k a v : Nat)
    (h : ∀ i, i < k → base + 4 * i ≠ a) :
    readArray (store mem a v) base k = readArray mem base k := by
  unfold readArray
  apply List.map_congr_left
  intro i hi
  simp only [store, if_neg (h i (List.mem_range.mp hi))]

theorem asmBlock1_succ (f : Nat) (s : State) :
    asmBlock1 (f + 1) s =
      if condEQ (subFlags s.n 0) = true then some { s with flags := subFlags s.n 0 }
      else asmBlock1 f (loopBody { s with flags := subFlags s.n 0 }) := rfl

theorem asmBlock1_run (ws : List Nat) : ∀ (s : State) (fuel : Nat),
    ws.length < fuel → s.n = ws.length → (∀ w ∈ ws, w < 2 ^ 32) →
    readArray s.mem s.rp ws.length = ws →
    s.rp + 4 * ws.length ≤ 2 ^ 32 → s.tp + 4 * ws.length ≤ 2 ^ 32 →
    (s.rp + 4 * ws.length ≤ s.tp ∨ s.tp + 4 * ws.length ≤ s.rp) →
    s.thr < 2 ^ 32 → s.maxv < 2 ^ 32 →
    ∃ s', asmBlock1 fuel s = some s' ∧
      s'.mem = writeArray s.mem s.tp (ws.map absWord) ∧
      s'.acc = ws.foldl (accStep s.thr) s.acc ∧ s'.thr = s.thr ∧ s'.n = 0 := by
  induction ws with
  | nil =>
    intro s fuel hf hn _ _ _ _ _ _ _
    obtain ⟨f, rfl⟩ : ∃ f, fuel = f + 1 :=
      ⟨fuel - 1, (Nat.succ_pred_eq_of_pos (Nat.pos_of_ne_zero (by rintro rfl; simp at hf))).symm⟩
    refine ⟨{ s with flags := subFlags s.n 0 }, ?_, ?_, ?_, ?_, hn⟩
    rotate_left
    · simp only [List.map_nil, writeArray]
    · simp only [List.foldl_nil, State.acc]
    · simp only []
    rw [asmBlock1_succ]
    have : condEQ (subFlags s.n 0) = true := by
      rw [condEQ_subFlags _ _ (by rw [hn]; norm_num) (by norm_num)]; exact hn
    simp only [this, if_true]
  | cons w ws ih =>
    intro s fuel hf hn hw hrd hrp htp hdj hthr hmax
    simp only [List.length_cons] at hf hn hrd hrp htp hdj
    obtain ⟨f, rfl⟩ : ∃ f, fuel = f + 1 := ⟨fuel - 1, by omega⟩
    rw [readArray_succ] at hrd
    have hhead : s.mem s.rp = w := (List.cons.inj hrd).1
    have htail : readArray s.mem (s.rp + 4) ws.length = ws := (List.cons.inj hrd).2
    have hwlt : w < 2 ^ 32 := hw w (List.mem_cons_self _ _)
    have hne : ¬ condEQ (subFlags s.n 0) = true := by
      rw [condEQ_subFlags _ _ (by rw [hn, p32]; omega) (by norm_num)]; omega
    rw [asmBlock1_succ, if_neg hne]
    have hb := loopBody_eq { s with flags := subFlags s.n 0 }
      (by show s.mem s.rp < 2 ^ 32; rw [hhead]; exact hwlt) hthr hmax
    dsimp only at hb
    rw [hhead] at hb
    rw [hb]
    have habs := absWord_lt w hwlt
    simp only [p32] at hrp htp hthr hmax habs
    have hws : ws.length = 0 ∨ 0 < ws.length := by omega
    have hrp2 : readArray (store s.mem s.tp (absWord w)) ((s.rp + 4) % 2 ^ 32) ws.length = ws := by
      rcases hws with h0 | h0
      · rw [h0, readArray_zero]; exact (List.length_eq_zero.mp h0).symm
      · rw [p32, Nat.mod_eq_of_lt (by omega), readArray_store _ _ _ _ _ (by intro i hi; omega)]
        exact htail
    have ih2 := ih (loopBody { s with flags := subFlags s.n 0 }) f (by omega)
    rw [hb] at ih2
    dsimp only at ih2
    simp only [p32] at ih2 hrp2
    obtain ⟨s', hrun, hmem, hacc, hthr', hn'⟩ := ih2 (by omega)
      (fun x hx => by have := hw x (List.mem_cons_of_mem _ hx); rwa [p32] at this) hrp2
      (by omega) (by omega) (by omega) hthr (by split_ifs <;> assumption)
    refine ⟨s', hrun, ?_, ?_, ?_, hn'⟩
    · rw [hmem]
      rw [List.map_cons, writeArray]
      rcases hws with h0 | h0
      · rw [List.length_eq_zero.mp h0]; rfl
      · rw [Nat.mod_eq_of_lt (by omega)]
    · rw [hacc, List.foldl_cons]
      simp only [accStep, State.acc, p32]
    · rw [hthr']

/-! ## Arrays in memory -/

theorem writeArray_of_not_mem (vs : List Nat) : ∀ (mem : Nat → Nat) (base a : Nat),
    (∀ i, i < vs.length → a ≠ base + 4 * i) → writeArray mem base vs a = mem a := by
  induction vs with
  | nil => intro mem base a _; rfl
  | cons v vs ih =>
    intro mem base a h
    rw [writeArray, ih]
    · have h0 : a ≠ base := by simpa using h 0 (by simp)
      simp only [store, if_neg h0]
    · intro i hi
      have := h (i + 1) (by simpa using hi)
      omega

theorem readArray_writeArray (vs : List Nat) : ∀ (mem : Nat → Nat) (base : Nat),
    readArray (writeArray mem base vs) base vs.length = vs := by
  induction vs with
  | nil => intro mem base; rfl
  | cons v vs ih =>
    intro mem base
    rw [List.length_cons, readArray_succ, writeArray, ih]
    rw [writeArray_of_not_mem _ _ _ _ (by intro i _; omega)]
    simp only [store, if_true]

theorem readArray_length (mem : Nat → Nat) (base len : Nat) :
    (readArray mem base len).length = len := by
  simp only [readArray, List.length_map, List.length_range]

theorem readArray_congr (m1 m2 : Nat → Nat) (base len : Nat)
    (h : ∀ i, i < len → m1 (base + 4 * i) = m2 (base + 4 * i)) :
    readArray m1 base len = readArray m2 base len := by
  unfold readArray
  apply List.map_congr_left
  intro i hi
  exact h i (List.mem_range.mp hi)

/-! ## Words and integers -/

theorem ofInt32_lt (x : Int) : ofInt32 x < 2 ^ 32 := by
  unfold ofInt32
  rw [p32, q32]
  omega

theorem toInt32_ofInt32 (x : Int) (hx : IsInt32 x) : toInt32 (ofInt32 x) = x := by
  unfold IsInt32 at hx
  unfold toInt32 ofInt32
  simp only [p31, q31, q32] at *
  split_ifs <;> omega

theorem isInt32_toInt32 (w : Nat) (hw : w < 2 ^ 32) : IsInt32 (toInt32 w) := by
  unfold IsInt32
  have := toInt32_cases w
  simp only [p32, q31] at *
  omega

/-- Signed reading of the word computed by the `cmp/bge/rsb` sequence. -/
theorem toInt32_absWord (x : Int) (hx : IsInt32 x) :
    toInt32 (absWord (ofInt32 x)) = if x = INT32_MIN then INT32_MIN else |x| := by
  unfold IsInt32 at hx
  unfold toInt32 absWord ofInt32 INT32_MIN
  simp only [p31, p32, q31, q32] at *
  rcases abs_cases x with ⟨h, _⟩ | ⟨h, _⟩ <;> rw [h] <;> split_ifs <;> omega

/-! ## The pass on well-formed input -/

/-- Final state of the pass: block #1 leaves through `beq 2f` with the
`transformed` array written and the accumulators folded over the readings. -/
theorem runPass_spec (s0 : State) (readings transformed : Nat) (R : List Int)
    (threshold : Int) (fuel : Nat)
    (hv : ValidInput s0.mem readings transformed R threshold) (hf : R.length < fuel) :
    ∃ s', runPass fuel s0 readings transformed R.length threshold = some s' ∧
      s'.mem = writeArray s0.mem transformed ((R.map ofInt32).map absWord) ∧
      s'.acc = (R.map ofInt32).foldl (accStep (ofInt32 threshold)) ⟨0, 0, 0, 0, 0⟩ := by
  obtain ⟨_, _, hrd, hrp, htp, hdj⟩ := hv
  have hlen : (R.map ofInt32).length = R.length := List.length_map _ _
  have h := asmBlock1_run (R.map ofInt32)
    (block1Entry s0 readings transformed R.length (ofInt32 threshold)) fuel
    (by rw [hlen]; exact hf) (by rw [hlen]; rfl)
    (by intro w hw
        obtain ⟨x, _, rfl⟩ := List.mem_map.mp hw
        exact ofInt32_lt x)
    (by rw [hlen]; exact hrd) (by rw [hlen]; exact hrp) (by rw [hlen]; exact htp)
    (by rw [hlen]; exact hdj) (ofInt32_lt threshold) (by show 0 < 2 ^ 32; norm_num)
  obtain ⟨s', hrun, hmem, hacc, _, _⟩ := h
  exact ⟨s', hrun, hmem, hacc⟩

/-- The `transformed` array after the pass, element by element. -/
theorem transformedOf_spec (s0 s' : State) (transformed : Nat) (R : List Int)
    (hR : ∀ r ∈ R, IsInt32 r)
    (hmem : s'.mem = writeArray s0.mem transformed ((R.map ofInt32).map absWord)) :
    transformedOf s' transformed R.length =
      R.map (fun r => if r = INT32_MIN then INT32_MIN else |r|) := by
  have hlen : ((R.map ofInt32).map absWord).length = R.length := by
    simp only [List.length_map]
  unfold transformedOf
  rw [hmem]
  conv_lhs => rw [← hlen]
  rw [readArray_writeArray, List.map_map, List.map_map]
  apply List.map_congr_left
  intro r hr
  exact toInt32_absWord r (hR r hr)

/-! ## Claims about the `transformed` array -/

/-- C1 (amended): for every sequence `R` of `int` readings and every threshold
the pass terminates, and afterwards `transformed[i]` equals `abs(R[i])` at every
index `i` with `R[i] ≠ INT32_MIN`, and equals `INT32_MIN` where `R[i] = INT32_MIN`. -/
theorem transformed_eq_abs (s0 : State) (readings transformed : Nat) (R : List Int)
    (threshold : Int) (fuel : Nat)
    (hv : ValidInput s0.mem readings transformed R threshold) (hf : R.length < fuel) :
    ∃ s', runPass fuel s0 readings transformed R.length threshold = some s' ∧
      transformedOf s' transformed R.length =
        R.map (fun r => if r = INT32_MIN then INT32_MIN else |r|) := by
  obtain ⟨s', hrun, hmem, _⟩ := runPass_spec s0 readings transformed R threshold fuel hv hf
  exact ⟨s', hrun, transformedOf_spec s0 s' transformed R hv.1 hmem⟩

/-- Witness for C1 (amended) on the readings `[5, -3, INT32_MIN]`. -/
theorem transformed_eq_abs_witness :
    ValidInput (stateWith (memWith 4096 [5, -3, INT32_MIN])).mem 4096 8192
        [5, -3, INT32_MIN] 5 ∧
      (∃ s', runPass 4 (stateWith (memWith 4096 [5, -3, INT32_MIN])) 4096 8192
            [5, -3, INT32_MIN].length 5 = some s' ∧
          transformedOf s' 8192 [5, -3, INT32_MIN].length =
            [5, -3, INT32_MIN].map (fun r => if r = INT32_MIN then INT32_MIN else |r|)) ∧
      [5, -3, INT32_MIN].map (fun r => if r = INT32_MIN then INT32_MIN else |r|) =
        [5, 3, -2147483648] :=
  ⟨by decide,
   transformed_eq_abs (stateWith (memWith 4096 [5, -3, INT32_MIN])) 4096 8192
     [5, -3, INT32_MIN] 5 4 (by decide) (by decide),
   by decide⟩

/-- C1 as stated fails: on the single reading `INT32_MIN` the pass stores
`INT32_MIN`, while the absolute value of the reading is `2147483648`. -/
theorem transformed_eq_abs_counterexample :
    ValidInput (memWith 4096 [INT32_MIN]) 4096 8192 [INT32_MIN] 0 ∧
      (runPass 2 (stateWith (memWith 4096 [INT32_MIN])) 4096 8192 1 0).map
          (fun s => transformedOf s 8192 1) = some [-2147483648] ∧
      [INT32_MIN].map (fun r => |r|) = [2147483648] := by
  decide

/-- C2 (amended): the pass terminates, and every value it writes to
`transformed` for a reading other than `INT32_MIN` is `≥ 0` as a signed
32-bit integer. -/
theorem transformed_nonneg (s0 : State) (readings transformed : Nat) (R : List Int)
    (threshold : Int) (fuel : Nat)
    (hv : ValidInput s0.mem readings transformed R threshold) (hf : R.length < fuel) :
    ∃ s', runPass fuel s0 readings transformed R.length threshold = some s' ∧
      ∀ (i : Nat) (r t : Int), R[i]? = some r →
        (transformedOf s' transformed R.length)[i]? = some t → r ≠ INT32_MIN → 0 ≤ t := by
  obtain ⟨s', hrun, hmem, _⟩ := runPass_spec s0 readings transformed R threshold fuel hv hf
  refine ⟨s', hrun, ?_⟩
  intro i r t hr ht hmin
  rw [transformedOf_spec s0 s' transformed R hv.1 hmem, List.getElem?_map, hr] at ht
  simp only [Option.map_some', if_neg hmin, Option.some.injEq] at ht
  rw [← ht]
  exact abs_nonneg r

/-- Witness for C2 (amended) on the readings `[-7, 0, 9]`. -/
theorem transformed_nonneg_witness :
    ValidInput (stateWith (memWith 4096 [-7, 0, 9])).mem 4096 8192 [-7, 0, 9] 3 ∧
      ∃ s', runPass 4 (stateWith (memWith 4096 [-7, 0, 9])) 4096 8192 3 3 = some s' ∧
        ∀ (i : Nat) (r t : Int), [-7, 0, 9][i]? = some r →
          (transformedOf s' 8192 3)[i]? = some t → r ≠ INT32_MIN → 0 ≤ t :=
  ⟨by decide,
   transformed_nonneg (stateWith (memWith 4096 [-7, 0, 9])) 4096 8192 [-7, 0, 9] 3 4
     (by decide) (by decide)⟩

/-- C2 as stated fails: on the readings `[7, INT32_MIN]` the second value
written to `transformed` is `-2147483648`, which is negative. -/
theorem transformed_nonneg_counterexample :
    ValidInput (memWith 4096 [7, INT32_MIN]) 4096 8192 [7, INT32_MIN] 5 ∧
      (runPass 3 (stateWith (memWith 4096 [7, INT32_MIN])) 4096 8192 2 5).map
          (fun s => transformedOf s 8192 2) = some [7, -2147483648] ∧
      ¬ (0 : Int) ≤ -2147483648 := by
  decide

/-! ## The accumulators as folds over the readings -/

theorem foldl_accStep_sum (thr : Nat) (ws : List Nat) : ∀ a : Acc, a.sum < 2 ^ 32 →
    (ws.foldl (accStep thr) a).sum = (a.sum + (ws.map absWord).sum) % 2 ^ 32 := by
  induction ws with
  | nil =>
    intro a ha
    simp only [List.foldl_nil, List.map_nil, List.sum_nil, Nat.add_zero]
    exact (Nat.mod_eq_of_lt ha).symm
  | cons w ws ih =>
    intro a _
    have hs : (accStep thr a w).sum = (a.sum + absWord w) % 2 ^ 32 := rfl
    rw [List.foldl_cons, ih _ (by rw [hs]; exact Nat.mod_lt _ (by norm_num)), hs,
      List.map_cons, List.sum_cons, p32]
    omega

theorem foldl_accStep_cnt (thr : Nat) (ws : List Nat) : ∀ a : Acc, a.cnt < 2 ^ 32 →
    (ws.foldl (accStep thr) a).cnt =
      (a.cnt + ws.countP (fun w => decide (toInt32 thr ≤ toInt32 (absWord w)))) % 2 ^ 32 := by
  induction ws with
  | nil =>
    intro a ha
    simp only [List.foldl_nil, List.countP_nil, Nat.add_zero]
    exact (Nat.mod_eq_of_lt ha).symm
  | cons w ws ih =>
    intro a ha
    have hs : (accStep thr a w).cnt =
        if toInt32 (absWord w) < toInt32 thr then a.cnt else (a.cnt + 1) % 2 ^ 32 := rfl
    have hlt : (accStep thr a w).cnt < 2 ^ 32 := by
      rw [hs]; split_ifs
      · exact ha
      · exact Nat.mod_lt _ (by norm_num)
    rw [List.foldl_cons, ih _ hlt, hs, List.countP_cons]
    by_cases h : toInt32 (absWord w) < toInt32 thr
    · have h' : ¬ toInt32 thr ≤ toInt32 (absWord w) := by omega
      simp only [if_pos h, decide_eq_true_eq, if_neg h', Nat.add_zero]
    · have h' : toInt32 thr ≤ toInt32 (absWord w) := by omega
      simp only [if_neg h, decide_eq_true_eq, if_pos h', p32]
      omega

theorem foldl_accStep_orv (thr : Nat) (ws : List Nat) : ∀ a : Acc,
    (ws.foldl (accStep thr) a).orv = (ws.map absWord).foldl (· ||| ·) a.orv := by
  induction ws with
  | nil => intro a; rfl
  | cons w ws ih => intro a; rw [List.foldl_cons, ih, List.map_cons, List.foldl_cons]; rfl

theorem foldl_accStep_xorv (thr : Nat) (ws : List Nat) : ∀ a : Acc,
    (ws.foldl (accStep thr) a).xorv = (ws.map absWord).foldl (· ^^^ ·) a.xorv := by
  induction ws with
  | nil => intro a; rfl
  | cons w ws ih => intro a; rw [List.foldl_cons, ih, List.map_cons, List.foldl_cons]; rfl

theorem accStep_maxv (thr : Nat) (a : Acc) (w : Nat) :
    (accStep thr a w).maxv =
      if toInt32 (absWord w) ≤ toInt32 a.maxv then a.maxv else absWord w := rfl

theorem foldl_accStep_maxv_ge_init (thr : Nat) (ws : List Nat) : ∀ a : Acc,
    toInt32 a.maxv ≤ toInt32 (ws.foldl (accStep thr) a).maxv := by
  induction ws with
  | nil => intro a; exact le_refl _
  | cons w ws ih =>
    intro a
    rw [List.foldl_cons]
    refine le_trans ?_ (ih _)
    rw [accStep_maxv]
    split_ifs <;> omega

theorem foldl_accStep_maxv_ge (thr : Nat) (ws : List Nat) : ∀ a : Acc, ∀ w ∈ ws,
    toInt32 (absWord w) ≤ toInt32 (ws.foldl (accStep thr) a).maxv := by
  induction ws with
  | nil => intro a w hw; cases hw
  | cons v ws ih =>
    intro a w hw
    rw [List.foldl_cons]
    rcases List.mem_cons.mp hw with rfl | hw
    · refine le_trans ?_ (foldl_accStep_maxv_ge_init thr ws _)
      rw [accStep_maxv]
      split_ifs <;> omega
    · exact ih _ w hw

theorem foldl_accStep_maxv_mem (thr : Nat) (ws : List Nat) : ∀ a : Acc,
    (ws.foldl (accStep thr) a).maxv = a.maxv ∨
      (ws.foldl (accStep thr) a).maxv ∈ ws.map absWord := by
  induction ws with
  | nil => intro a; exact Or.inl rfl
  | cons w ws ih =>
    intro a
    rw [List.foldl_cons, List.map_cons]
    rcases ih (accStep thr a w) with h | h
    · rw [h, accStep_maxv]
      split_ifs
      · exact Or.inl rfl
      · exact Or.inr (List.mem_cons_self _ _)
    · exact Or.inr (List.mem_cons_of_mem _ h)

/-- The words of `transformed` after the pass. -/
theorem readArray_transformed (s0 s' : State) (transformed : Nat) (R : List Int)
    (hmem : s'.mem = writeArray s0.mem transformed ((R.map ofInt32).map absWord)) :
    readArray s'.mem transformed R.length = (R.map ofInt32).map absWord := by
  have hlen : ((R.map ofInt32).map absWord).length = R.length := by
    simp only [List.length_map]
  rw [hmem]
  conv_lhs => rw [← hlen]
  rw [readArray_writeArray]

theorem sum_map_toInt32 (ts : List Nat) :
    ((ts.map toInt32).sum - (ts.sum : Int)) % 4294967296 = 0 := by
  induction ts with
  | nil => rfl
  | cons t ts ih =>
    simp only [List.map_cons, List.sum_cons, Nat.cast_add]
    have := toInt32_cases t
    omega

/-! ## Claims about the reductions -/

/-- C3 (amended): the pass terminates; for empty readings `max_value` is 0, and
for readings that contain at least one value other than `INT32_MIN`,
`max_value` is the signed maximum of `transformed`: it occurs in `transformed`
and no element of `transformed` exceeds it. -/
theorem max_value_eq_max (s0 : State) (readings transformed : Nat) (R : List Int)
    (threshold : Int) (fuel : Nat)
    (hv : ValidInput s0.mem readings transformed R threshold) (hf : R.length < fuel) :
    ∃ s', runPass fuel s0 readings transformed R.length threshold = some s' ∧
      (R = [] → toInt32 s'.maxv = 0) ∧
      ((∃ r ∈ R, r ≠ INT32_MIN) →
        toInt32 s'.maxv ∈ transformedOf s' transformed R.length ∧
        ∀ t ∈ transformedOf s' transformed R.length, t ≤ toInt32 s'.maxv) := by
  obtain ⟨s', hrun, hmem, hacc⟩ := runPass_spec s0 readings transformed R threshold fuel hv hf
  have hmax : s'.maxv =
      ((R.map ofInt32).foldl (accStep (ofInt32 threshold)) ⟨0, 0, 0, 0, 0⟩).maxv :=
    congrArg Acc.maxv hacc
  have hT : transformedOf s' transformed R.length =
      ((R.map ofInt32).map absWord).map toInt32 := by
    unfold transformedOf; rw [readArray_transformed s0 s' transformed R hmem]
  have hz : toInt32 0 = 0 := by decide
  have hle : ∀ t ∈ transformedOf s' transformed R.length, t ≤ toInt32 s'.maxv := by
    intro t ht
    rw [hT] at ht
    obtain ⟨u, hu, rfl⟩ := List.mem_map.mp ht
    obtain ⟨w, hw, rfl⟩ := List.mem_map.mp hu
    rw [hmax]
    exact foldl_accStep_maxv_ge _ _ _ w hw
  refine ⟨s', hrun, ?_, ?_⟩
  · intro hnil
    rw [hmax, hnil]
    exact hz
  · rintro ⟨r, hr, hmin⟩
    refine ⟨?_, hle⟩
    rcases foldl_accStep_maxv_mem (ofInt32 threshold) (R.map ofInt32) ⟨0, 0, 0, 0, 0⟩ with h | h
    · have h0 : s'.maxv = 0 := hmax.trans h
      have hmemT : |r| ∈ transformedOf s' transformed R.length := by
        rw [transformedOf_spec s0 s' transformed R hv.1 hmem]
        refine List.mem_map.mpr ⟨r, hr, ?_⟩
        rw [if_neg hmin]
      have h1 := hle _ hmemT
      rw [h0, hz] at h1
      have h2 : |r| = 0 := le_antisymm h1 (abs_nonneg r)
      rw [h0, hz, ← h2]
      exact hmemT
    · rw [hT, hmax]
      exact List.mem_map_of_mem _ h

/-- Witness for C3 (amended) on the readings `[-9, INT32_MIN, 4]`. -/
theorem max_value_eq_max_witness :
    ValidInput (stateWith (memWith 4096 [-9, INT32_MIN, 4])).mem 4096 8192
        [-9, INT32_MIN, 4] 5 ∧
      (∃ s', runPass 4 (stateWith (memWith 4096 [-9, INT32_MIN, 4])) 4096 8192
            [-9, INT32_MIN, 4].length 5 = some s' ∧
          ([-9, INT32_MIN, 4] = [] → toInt32 s'.maxv = 0) ∧
          ((∃ r ∈ [-9, INT32_MIN, 4], r ≠ INT32_MIN) →
            toInt32 s'.maxv ∈ transformedOf s' 8192 [-9, INT32_MIN, 4].length ∧
            ∀ t ∈ transformedOf s' 8192 [-9, INT32_MIN, 4].length, t ≤ toInt32 s'.maxv)) ∧
      (runPass 4 (stateWith (memWith 4096 [-9, INT32_MIN, 4])) 4096 8192 3 5).map
          (fun s => toInt32 s.maxv) = some 9 :=
  ⟨by decide,
   max_value_eq_max (stateWith (memWith 4096 [-9, INT32_MIN, 4])) 4096 8192
     [-9, INT32_MIN, 4] 5 4 (by decide) (by decide),
   by decide⟩

/-- C3 as stated fails: on the single reading `INT32_MIN` the pass leaves
`max_value = 0`, while `transformed = [INT32_MIN]`, whose maximum is
`-2147483648`; `0` is not an element of `transformed`. -/
theorem max_value_eq_max_counterexample :
    ValidInput (memWith 4096 [INT32_MIN]) 4096 8192 [INT32_MIN] 5 ∧
      (runPass 2 (stateWith (memWith 4096 [INT32_MIN])) 4096 8192 1 5).map
          (fun s => (toInt32 s.maxv, transformedOf s 8192 1)) = some (0, [-2147483648]) ∧
      (0 : Int) ∉ [(-2147483648 : Int)] := by
  decide

/-- C4: the pass terminates, and `total_sum` is the sum of all transformed
values in 32-bit wrapping arithmetic: it is an `int` and is congruent to the
sum of the transformed values modulo `2 ^ 32`. -/
theorem total_sum_eq_sum (s0 : State) (readings transformed : Nat) (R : List Int)
    (threshold : Int) (fuel : Nat)
    (hv : ValidInput s0.mem readings transformed R threshold) (hf : R.length < fuel) :
    ∃ s', runPass fuel s0 readings transformed R.length threshold = some s' ∧
      IsInt32 (toInt32 s'.sum) ∧
      (toInt32 s'.sum - (transformedOf s' transformed R.length).sum) % 2 ^ 32 = 0 := by
  obtain ⟨s', hrun, hmem, hacc⟩ := runPass_spec s0 readings transformed R threshold fuel hv hf
  have hsum : s'.sum =
      ((R.map ofInt32).foldl (accStep (ofInt32 threshold)) ⟨0, 0, 0, 0, 0⟩).sum :=
    congrArg Acc.sum hacc
  rw [foldl_accStep_sum _ _ _ (by show 0 < 2 ^ 32; norm_num)] at hsum
  have hlt : s'.sum < 2 ^ 32 := by rw [hsum]; exact Nat.mod_lt _ (by norm_num)
  refine ⟨s', hrun, isInt32_toInt32 _ hlt, ?_⟩
  unfold transformedOf
  rw [readArray_transformed s0 s' transformed R hmem]
  have h1 := sum_map_toInt32 ((R.map ofInt32).map absWord)
  have h2 := toInt32_cases s'.sum
  simp only [p32, q32, Nat.zero_add] at hsum ⊢
  omega

/-- Witness for C4 on readings whose absolute values overflow 32 bits. -/
theorem total_sum_eq_sum_witness :
    ValidInput (stateWith (memWith 4096 [2147483647, -2147483647, 3])).mem 4096 8192
        [2147483647, -2147483647, 3] 5 ∧
      (∃ s', runPass 4 (stateWith (memWith 4096 [2147483647, -2147483647, 3])) 4096 8192
            [2147483647, -2147483647, 3].length 5 = some s' ∧
          IsInt32 (toInt32 s'.sum) ∧
          (toInt32 s'.sum -
            (transformedOf s' 8192 [2147483647, -2147483647, 3].length).sum) % 2 ^ 32 = 0) ∧
      (runPass 4 (stateWith (memWith 4096 [2147483647, -2147483647, 3])) 4096 8192 3 5).map
          (fun s => toInt32 s.sum) = some 1 :=
  ⟨by decide,
   total_sum_eq_sum (stateWith (memWith 4096 [2147483647, -2147483647, 3])) 4096 8192
     [2147483647, -2147483647, 3] 5 4 (by decide) (by decide),
   by decide⟩

/-- C5: the pass terminates, and `above_threshold_count` is the number of
indices `i` with `transformed[i] >= threshold` under signed comparison, so an
element equal to the threshold is counted.  (`ValidInput` bounds the number of
readings by `2 ^ 30`, the largest `int` array that fits the address space.) -/
theorem above_threshold_count_eq (s0 : State) (readings transformed : Nat) (R : List Int)
    (threshold : Int) (fuel : Nat)
    (hv : ValidInput s0.mem readings transformed R threshold) (hf : R.length < fuel) :
    ∃ s', runPass fuel s0 readings transformed R.length threshold = some s' ∧
      toInt32 s'.cnt =
        ((transformedOf s' transformed R.length).countP
          (fun t => decide (threshold ≤ t)) : Nat) := by
  obtain ⟨s', hrun, hmem, hacc⟩ := runPass_spec s0 readings transformed R threshold fuel hv hf
  have hcnt : s'.cnt =
      ((R.map ofInt32).foldl (accStep (ofInt32 threshold)) ⟨0, 0, 0, 0, 0⟩).cnt :=
    congrArg Acc.cnt hacc
  rw [foldl_accStep_cnt _ _ _ (by show 0 < 2 ^ 32; norm_num),
    toInt32_ofInt32 threshold hv.2.1] at hcnt
  have hT : (transformedOf s' transformed R.length).countP (fun t => decide (threshold ≤ t)) =
      (R.map ofInt32).countP (fun w => decide (threshold ≤ toInt32 (absWord w))) := by
    unfold transformedOf
    rw [readArray_transformed s0 s' transformed R hmem, List.map_map, List.countP_map]
    rfl
  have hle : (R.map ofInt32).countP (fun w => decide (threshold ≤ toInt32 (absWord w))) ≤
      R.length := by
    have := List.countP_le_length (fun w => decide (threshold ≤ toInt32 (absWord w)))
      (l := R.map ofInt32)
    rwa [List.length_map] at this
  have hlen := hv.2.2.2.1
  have h2 := toInt32_cases s'.cnt
  refine ⟨s', hrun, ?_⟩
  rw [hT]
  simp only [p32, Nat.zero_add] at hcnt hlen
  omega

/-- Witness for C5: the single reading `0` with threshold `0` is counted once. -/
theorem above_threshold_count_eq_witness :
    ValidInput (stateWith (memWith 4096 [0])).mem 4096 8192 [0] 0 ∧
      (∃ s', runPass 2 (stateWith (memWith 4096 [0])) 4096 8192 [(0 : Int)].length 0 = some s' ∧
          toInt32 s'.cnt =
            ((transformedOf s' 8192 [(0 : Int)].length).countP
              (fun t => decide ((0 : Int) ≤ t)) : Nat)) ∧
      (runPass 2 (stateWith (memWith 4096 [0])) 4096 8192 1 0).map
          (fun s => toInt32 s.cnt) = some 1 :=
  ⟨by decide,
   above_threshold_count_eq (stateWith (memWith 4096 [0])) 4096 8192 [0] 0 2
     (by decide) (by decide),
   by decide⟩

/-- C6: the pass terminates, `combined_or` is the bitwise-OR fold from 0 of
the transformed values, and `combined_xor` is their bitwise-XOR fold from 0
(both on the 32-bit words that represent the values). -/
theorem combined_or_xor_eq_fold (s0 : State) (readings transformed : Nat) (R : List Int)
    (threshold : Int) (fuel : Nat)
    (hv : ValidInput s0.mem readings transformed R threshold) (hf : R.length < fuel) :
    ∃ s', runPass fuel s0 readings transformed R.length threshold = some s' ∧
      s'.orv = (readArray s'.mem transformed R.length).foldl (· ||| ·) 0 ∧
      s'.xorv = (readArray s'.mem transformed R.length).foldl (· ^^^ ·) 0 := by
  obtain ⟨s', hrun, hmem, hacc⟩ := runPass_spec s0 readings transformed R threshold fuel hv hf
  have hor : s'.orv =
      ((R.map ofInt32).foldl (accStep (ofInt32 threshold)) ⟨0, 0, 0, 0, 0⟩).orv :=
    congrArg Acc.orv hacc
  have hxor : s'.xorv =
      ((R.map ofInt32).foldl (accStep (ofInt32 threshold)) ⟨0, 0, 0, 0, 0⟩).xorv :=
    congrArg Acc.xorv hacc
  rw [foldl_accStep_orv] at hor
  rw [foldl_accStep_xorv] at hxor
  refine ⟨s', hrun, ?_, ?_⟩
  · rw [readArray_transformed s0 s' transformed R hmem]; exact hor
  · rw [readArray_transformed s0 s' transformed R hmem]; exact hxor

/-- Witness for C6 on the readings `[-6, 3, 12]`: OR is 15 and XOR is 9. -/
theorem combined_or_xor_eq_fold_witness :
    ValidInput (stateWith (memWith 4096 [-6, 3, 12])).mem 4096 8192 [-6, 3, 12] 5 ∧
      (∃ s', runPass 4 (stateWith (memWith 4096 [-6, 3, 12])) 4096 8192
            [(-6 : Int), 3, 12].length 5 = some s' ∧
          s'.orv = (readArray s'.mem 8192 [(-6 : Int), 3, 12].length).foldl (· ||| ·) 0 ∧
          s'.xorv = (readArray s'.mem 8192 [(-6 : Int), 3, 12].length).foldl (· ^^^ ·) 0) ∧
      (runPass 4 (stateWith (memWith 4096 [-6, 3, 12])) 4096 8192 3 5).map
          (fun s => (s.orv, s.xorv)) = some (15, 9) :=
  ⟨by decide,
   combined_or_xor_eq_fold (stateWith (memWith 4096 [-6, 3, 12])) 4096 8192 [-6, 3, 12] 5 4
     (by decide) (by decide),
   by decide⟩

/-! ## Block #2 -/

theorem block2Extra_mem (s : State2) : (block2Extra s).mem = s.mem := rfl

theorem asmBlock2_mem (s : State2) :
    (asmBlock2 s).mem = store s.mem s.par_ptr (s.mem s.xor_ptr &&& 1) := rfl

theorem store_same (mem : Nat → Nat) (a v : Nat) : store mem a v a = v := by
  simp only [store, if_true]

theorem store_other (mem : Nat → Nat) (a v x : Nat) (h : x ≠ a) : store mem a v x = mem x := by
  simp only [store, if_neg h]

/-- C7: for every `int` value `x` of `combined_xor`, block #2 stores
`final_parity = combined_xor & 1`, which is `x mod 2` and hence 0 or 1; the
extra `mvn/eor/orr/bic` instructions leave memory as the first three
instructions left it, and `combined_xor` keeps its value. -/
theorem final_parity_eq (s : State2) (x : Int) (hx : IsInt32 x)
    (hmem : s.mem s.xor_ptr = ofInt32 x) (hne : NoOverlap s.xor_ptr 4 s.par_ptr 4) :
    (asmBlock2 s).mem s.par_ptr = ofInt32 x &&& 1 ∧
      toInt32 ((asmBlock2 s).mem s.par_ptr) = x % 2 ∧
      (x % 2 = 0 ∨ x % 2 = 1) ∧
      (asmBlock2 s).mem = (block2Parity s).mem ∧
      toInt32 ((asmBlock2 s).mem s.xor_ptr) = x := by
  have hpar : (asmBlock2 s).mem s.par_ptr = ofInt32 x &&& 1 := by
    rw [asmBlock2_mem, store_same, hmem]
  have hxp : s.xor_ptr ≠ s.par_ptr := by
    unfold NoOverlap at hne; omega
  refine ⟨hpar, ?_, by omega, rfl, ?_⟩
  · rw [hpar, Nat.and_one_is_mod]
    have h1 := toInt32_cases (ofInt32 x % 2)
    have h2 : ofInt32 x % 2 < 2 := Nat.mod_lt _ (by norm_num)
    have h3 : ((ofInt32 x % 2 : Nat) : Int) = x % 2 := by
      unfold ofInt32; rw [q32]; omega
    omega
  · rw [asmBlock2_mem, store_other _ _ _ _ hxp, hmem]
    exact toInt32_ofInt32 x hx

/-- Witness for C7 with `combined_xor = -3` (an odd negative value). -/
theorem final_parity_eq_witness :
    IsInt32 (-3) ∧
      ((asmBlock2 ⟨memWith 12288 [-3], 12288, 12292, 0, 0, 0, 0⟩).mem 12292 = ofInt32 (-3) &&& 1 ∧
        toInt32 ((asmBlock2 ⟨memWith 12288 [-3], 12288, 12292, 0, 0, 0, 0⟩).mem 12292) =
          (-3 : Int) % 2 ∧
        ((-3 : Int) % 2 = 0 ∨ (-3 : Int) % 2 = 1) ∧
        (asmBlock2 ⟨memWith 12288 [-3], 12288, 12292, 0, 0, 0, 0⟩).mem =
          (block2Parity ⟨memWith 12288 [-3], 12288, 12292, 0, 0, 0, 0⟩).mem ∧
        toInt32 ((asmBlock2 ⟨memWith 12288 [-3], 12288, 12292, 0, 0, 0, 0⟩).mem 12288) = -3) ∧
      toInt32 ((asmBlock2 ⟨memWith 12288 [-3], 12288, 12292, 0, 0, 0, 0⟩).mem 12292) = 1 :=
  ⟨by decide,
   final_parity_eq ⟨memWith 12288 [-3], 12288, 12292, 0, 0, 0, 0⟩ (-3) (by decide) (by decide)
     (by decide),
   by decide⟩

/-! ## Empty readings -/

/-- C10: for an element count of 0 and every threshold, block #1 leaves at its
first exit test: the final state is the entry state with only the flags set by
`cmp n, #0`, so memory is untouched, `transformed` is empty, and the five
reductions are 0. -/
theorem empty_readings (s0 : State) (readings transformed : Nat) (threshold : Int)
    (fuel : Nat) (hf : 0 < fuel) :
    ∃ s', runPass fuel s0 readings transformed 0 threshold = some s' ∧
      s' = { block1Entry s0 readings transformed 0 (ofInt32 threshold) with
             flags := subFlags 0 0 } ∧
      s'.mem = s0.mem ∧ transformedOf s' transformed 0 = [] ∧
      toInt32 s'.sum = 0 ∧ toInt32 s'.cnt = 0 ∧ toInt32 s'.maxv = 0 ∧
      toInt32 s'.orv = 0 ∧ toInt32 s'.xorv = 0 := by
  obtain ⟨f, rfl⟩ : ∃ f, fuel = f + 1 := ⟨fuel - 1, by omega⟩
  have hz : toInt32 0 = 0 := by decide
  refine ⟨_, ?_, rfl, rfl, rfl, hz, hz, hz, hz, hz⟩
  have hc : condEQ (subFlags (block1Entry s0 readings transformed 0 (ofInt32 threshold)).n 0)
      = true :=
    (condEQ_subFlags _ _ (by show 0 < 2 ^ 32; norm_num) (by norm_num)).mpr rfl
  unfold runPass
  rw [asmBlock1_succ, if_pos hc]
  simp only [block1Entry]

/-- Witness for C10 with the least fuel. -/
theorem empty_readings_witness :
    ∃ s', runPass 1 (stateWith (fun _ => 7)) 4096 8192 0 5 = some s' ∧
      s' = { block1Entry (stateWith (fun _ => 7)) 4096 8192 0 (ofInt32 5) with
             flags := subFlags 0 0 } ∧
      s'.mem = (stateWith (fun _ => 7)).mem ∧ transformedOf s' 8192 0 = [] ∧
      toInt32 s'.sum = 0 ∧ toInt32 s'.cnt = 0 ∧ toInt32 s'.maxv = 0 ∧
      toInt32 s'.orv = 0 ∧ toInt32 s'.xorv = 0 :=
  empty_readings (stateWith (fun _ => 7)) 4096 8192 5 1 (by decide)

/-! ## The fixed input of `main` -/

/-- What `main` reports, for every valid placement of its objects in memory. -/
theorem main_report (fuel : Nat) (fr : Frame) (s0 : State) (t0 : State2)
    (hfr : fr.Valid) (hf : 8 < fuel) :
    main fuel fr s0 t0 = some
      { transformed := [5, 3, 12, 6, 0, 1, 7, 4], total_sum := 38, above_threshold_count := 4,
        max_value := 12, combined_or := 15, combined_xor := 14, final_parity := 0 } := by
  obtain ⟨h1, h2, h3, h4, d1, d2, d3, d4, d5, d6⟩ := hfr
  unfold NoOverlap at d1 d2 d3 d4 d5 d6
  simp only [p32] at h1 h2 h3 h4
  have hlen : mainReadings.length = 8 := rfl
  have hwl : (mainReadings.map ofInt32).length = 8 := rfl
  have hv : ValidInput
      (store (store (writeArray s0.mem fr.readings (mainReadings.map ofInt32))
        fr.combined_xor 0) fr.final_parity 0)
      fr.readings fr.transformed mainReadings mainThreshold := by
    refine ⟨by decide, by decide, ?_, ?_, ?_, ?_⟩
    · rw [hlen, readArray_store _ _ _ _ _ (by intro i hi; omega),
        readArray_store _ _ _ _ _ (by intro i hi; omega)]
      conv_lhs => rw [← hwl]
      rw [readArray_writeArray]
    · rw [hlen, p32]; omega
    · rw [hlen, p32]; omega
    · unfold NoOverlap; rw [hlen]; omega
  obtain ⟨s1, hrun, hmem, hacc⟩ := runPass_spec
    { s0 with mem := store (store (writeArray s0.mem fr.readings (mainReadings.map ofInt32))
        fr.combined_xor 0) fr.final_parity 0 }
    fr.readings fr.transformed mainReadings mainThreshold fuel hv (by rw [hlen]; exact hf)
  have hacc' : s1.acc = ⟨38, 4, 12, 15, 14⟩ := by
    rw [hacc]; decide
  have hsum : s1.sum = 38 := congrArg Acc.sum hacc'
  have hcnt : s1.cnt = 4 := congrArg Acc.cnt hacc'
  have hmax : s1.maxv = 12 := congrArg Acc.maxv hacc'
  have hor : s1.orv = 15 := congrArg Acc.orv hacc'
  have hxor : s1.xorv = 14 := congrArg Acc.xorv hacc'
  have hT := readArray_transformed _ s1 fr.transformed mainReadings hmem
  rw [hlen] at hT
  have hxp : fr.combined_xor ≠ fr.final_parity := by omega
  unfold main
  simp only []
  rw [hrun]
  simp only [asmBlock2_mem, store_same, hlen]
  rw [readArray_store _ _ _ _ _ (by intro i hi; omega),
    readArray_store _ _ _ _ _ (by intro i hi; omega), hT,
    store_other _ _ _ _ hxp, store_same, hsum, hcnt, hmax, hor, hxor]
  decide

/-- C8: for the fixed input of `main`, readings `[5, -3, 12, 6, 0, -1, 7, 4]`
with threshold 5, the program terminates and reports
`transformed = [5, 3, 12, 6, 0, 1, 7, 4]`, `total_sum = 38`,
`above_threshold_count = 4`, `max_value = 12`, `combined_or = 15` and
`final_parity = 0`. -/
theorem main_fixed_input (fuel : Nat) (fr : Frame) (s0 : State) (t0 : State2)
    (hfr : fr.Valid) (hf : 8 < fuel) :
    ∃ rep, main fuel fr s0 t0 = some rep ∧
      rep.transformed = [5, 3, 12, 6, 0, 1, 7, 4] ∧ rep.total_sum = 38 ∧
      rep.above_threshold_count = 4 ∧ rep.max_value = 12 ∧ rep.combined_or = 15 ∧
      rep.final_parity = 0 :=
  ⟨_, main_report fuel fr s0 t0 hfr hf, rfl, rfl, rfl, rfl, rfl, rfl⟩

/-- Witness for C8 with the arrays at `0x1000` and `0x2000` and the two result
words at `0x3000` and `0x3004`. -/
theorem main_fixed_input_witness :
    Frame.Valid ⟨4096, 8192, 12288, 12292⟩ ∧
      ∃ rep, main 9 ⟨4096, 8192, 12288, 12292⟩ (stateWith (fun _ => 0))
          ⟨fun _ => 0, 0, 0, 0, 0, 0, 0⟩ = some rep ∧
        rep.transformed = [5, 3, 12, 6, 0, 1, 7, 4] ∧ rep.total_sum = 38 ∧
        rep.above_threshold_count = 4 ∧ rep.max_value = 12 ∧ rep.combined_or = 15 ∧
        rep.final_parity = 0 :=
  ⟨by decide,
   main_fixed_input 9 ⟨4096, 8192, 12288, 12292⟩ (stateWith (fun _ => 0))
     ⟨fun _ => 0, 0, 0, 0, 0, 0, 0⟩ (by decide) (by decide)⟩

/-- C9 (amended): for the fixed input of `main` the program terminates and
reports `combined_xor = 14`, which is `5^3^12^6^0^1^7^4`. -/
theorem main_combined_xor (fuel : Nat) (fr : Frame) (s0 : State) (t0 : State2)
    (hfr : fr.Valid) (hf : 8 < fuel) :
    ∃ rep, main fuel fr s0 t0 = some rep ∧ rep.combined_xor = 14 :=
  ⟨_, main_report fuel fr s0 t0 hfr hf, rfl⟩

/-- Witness for C9 (amended) with the arrays at `0x1000` and `0x4000`. -/
theorem main_combined_xor_witness :
    Frame.Valid ⟨4096, 16384, 20480, 20484⟩ ∧
      ∃ rep, main 10 ⟨4096, 16384, 20480, 20484⟩ (stateWith (fun _ => 1))
          ⟨fun _ => 1, 0, 0, 0, 0, 0, 0⟩ = some rep ∧ rep.combined_xor = 14 :=
  ⟨by decide,
   main_combined_xor 10 ⟨4096, 16384, 20480, 20484⟩ (stateWith (fun _ => 1))
     ⟨fun _ => 1, 0, 0, 0, 0, 0, 0⟩ (by decide) (by decide)⟩

/-- C9 as stated fails: on a concrete valid frame `main` reports
`combined_xor = 14`, not 8; indeed `5^3^12^6^0^1^7^4 = 14` on naturals. -/
theorem main_combined_xor_counterexample :
    Frame.Valid ⟨4096, 8192, 12288, 12292⟩ ∧
      (main 9 ⟨4096, 8192, 12288, 12292⟩ (stateWith (fun _ => 0))
          ⟨fun _ => 0, 0, 0, 0, 0, 0, 0⟩).map (fun rep => rep.combined_xor) = some 14 ∧
      (5 ^^^ 3 ^^^ 12 ^^^ 6 ^^^ 0 ^^^ 1 ^^^ 7 ^^^ 4 : Nat) = 14 ∧ (14 : Int) ≠ 8 := by
  decide!

/-! ## Order independence of the bitwise reductions -/

/-- C11: for every sequence of readings and every permutation of it, the pass
terminates on both and yields the same `combined_or` and the same
`combined_xor`. -/
theorem combined_or_xor_perm (s0 s0' : State) (readings transformed readings' transformed' : Nat)
    (R R' : List Int) (threshold : Int) (fuel fuel' : Nat)
    (hv : ValidInput s0.mem readings transformed R threshold)
    (hv' : ValidInput s0'.mem readings' transformed' R' threshold)
    (hf : R.length < fuel) (hf' : R'.length < fuel') (hp : R.Perm R') :
    ∃ s1 s2, runPass fuel s0 readings transformed R.length threshold = some s1 ∧
      runPass fuel' s0' readings' transformed' R'.length threshold = some s2 ∧
      s1.orv = s2.orv ∧ s1.xorv = s2.xorv := by
  obtain ⟨s1, hrun1, _, hacc1⟩ := runPass_spec s0 readings transformed R threshold fuel hv hf
  obtain ⟨s2, hrun2, _, hacc2⟩ :=
    runPass_spec s0' readings' transformed' R' threshold fuel' hv' hf'
  have hperm : ((R.map ofInt32).map absWord).Perm ((R'.map ofInt32).map absWord) :=
    (hp.map _).map _
  refine ⟨s1, s2, hrun1, hrun2, ?_, ?_⟩
  · have h1 : s1.orv = _ := congrArg Acc.orv hacc1
    have h2 : s2.orv = _ := congrArg Acc.orv hacc2
    rw [h1, h2, foldl_accStep_orv, foldl_accStep_orv]
    apply hperm.foldl_eq'
    intro x _ y _ z
    show (z ||| x) ||| y = (z ||| y) ||| x
    rw [Nat.or_assoc, Nat.or_assoc, Nat.or_comm x y]
  · have h1 : s1.xorv = _ := congrArg Acc.xorv hacc1
    have h2 : s2.xorv = _ := congrArg Acc.xorv hacc2
    rw [h1, h2, foldl_accStep_xorv, foldl_accStep_xorv]
    apply hperm.foldl_eq'
    intro x _ y _ z
    show (z ^^^ x) ^^^ y = (z ^^^ y) ^^^ x
    rw [Nat.xor_assoc, Nat.xor_assoc, Nat.xor_comm x y]

/-- Witness for C11 on `[5, -3, 12]` and its permutation `[12, 5, -3]`. -/
theorem combined_or_xor_perm_witness :
    ValidInput (stateWith (memWith 4096 [5, -3, 12])).mem 4096 8192 [5, -3, 12] 5 ∧
      ValidInput (stateWith (memWith 256 [12, 5, -3])).mem 256 512 [12, 5, -3] 5 ∧
      (∃ s1 s2, runPass 4 (stateWith (memWith 4096 [5, -3, 12])) 4096 8192
            [(5 : Int), -3, 12].length 5 = some s1 ∧
          runPass 5 (stateWith (memWith 256 [12, 5, -3])) 256 512
            [(12 : Int), 5, -3].length 5 = some s2 ∧
          s1.orv = s2.orv ∧ s1.xorv = s2.xorv) :=
  ⟨by decide, by decide,
   combined_or_xor_perm (stateWith (memWith 4096 [5, -3, 12]))
     (stateWith (memWith 256 [12, 5, -3])) 4096 8192 256 512 [5, -3, 12] [12, 5, -3] 5 4 5
     (by decide) (by decide) (by decide) (by decide) (by decide)⟩

/-! ## Frame of the two blocks -/

/-- C13: with memory modelled explicitly, the pass leaves every element of
`readings` unchanged and changes no word outside `transformed[0..len)` (its only
store goes through the write pointer `tp`); block #2 changes no word other than
`final_parity`. -/
theorem pass_frame (s0 : State) (readings transformed : Nat) (R : List Int)
    (threshold : Int) (fuel : Nat)
    (hv : ValidInput s0.mem readings transformed R threshold) (hf : R.length < fuel) :
    ∃ s', runPass fuel s0 readings transformed R.length threshold = some s' ∧
      readArray s'.mem readings R.length = readArray s0.mem readings R.length ∧
      (∀ a, (∀ i, i < R.length → a ≠ transformed + 4 * i) → s'.mem a = s0.mem a) ∧
      (∀ (t : State2) (a : Nat), a ≠ t.par_ptr → (asmBlock2 t).mem a = t.mem a) := by
  obtain ⟨s', hrun, hmem, _⟩ := runPass_spec s0 readings transformed R threshold fuel hv hf
  have hlen : ((R.map ofInt32).map absWord).length = R.length := by
    simp only [List.length_map]
  have hframe : ∀ a, (∀ i, i < R.length → a ≠ transformed + 4 * i) → s'.mem a = s0.mem a := by
    intro a ha
    rw [hmem]
    exact writeArray_of_not_mem _ _ _ _ (by rw [hlen]; exact ha)
  have hdj := hv.2.2.2.2.2
  unfold NoOverlap at hdj
  refine ⟨s', hrun, ?_, hframe, ?_⟩
  · apply readArray_congr
    intro i hi
    exact hframe _ (by intro j hj; omega)
  · intro t a ha
    rw [asmBlock2_mem, store_other _ _ _ _ ha]

/-- Witness for C13 on the readings `[4, -8]`. -/
theorem pass_frame_witness :
    ValidInput (stateWith (memWith 4096 [4, -8])).mem 4096 8192 [4, -8] 5 ∧
      ∃ s', runPass 3 (stateWith (memWith 4096 [4, -8])) 4096 8192 [(4 : Int), -8].length 5 =
          some s' ∧
        readArray s'.mem 4096 [(4 : Int), -8].length =
          readArray (stateWith (memWith 4096 [4, -8])).mem 4096 [(4 : Int), -8].length ∧
        (∀ a, (∀ i, i < [(4 : Int), -8].length → a ≠ 8192 + 4 * i) →
          s'.mem a = (stateWith (memWith 4096 [4, -8])).mem a) ∧
        (∀ (t : State2) (a : Nat), a ≠ t.par_ptr → (asmBlock2 t).mem a = t.mem a) :=
  ⟨by decide,
   pass_frame (stateWith (memWith 4096 [4, -8])) 4096 8192 [4, -8] 5 3 (by decide) (by decide)⟩

/-! ## The maximum without a precondition on the values -/

/-- C19: for every sequence of readings, `INT32_MIN` allowed, the pass
terminates with `max_value >= 0`, `max_value >= transformed[i]` for every index
`i`, and `max_value` either 0 or equal to some `transformed[i]`. -/
theorem max_value_bounds (s0 : State) (readings transformed : Nat) (R : List Int)
    (threshold : Int) (fuel : Nat)
    (hv : ValidInput s0.mem readings transformed R threshold) (hf : R.length < fuel) :
    ∃ s', runPass fuel s0 readings transformed R.length threshold = some s' ∧
      0 ≤ toInt32 s'.maxv ∧
      (∀ t ∈ transformedOf s' transformed R.length, t ≤ toInt32 s'.maxv) ∧
      (toInt32 s'.maxv = 0 ∨ toInt32 s'.maxv ∈ transformedOf s' transformed R.length) := by
  obtain ⟨s', hrun, hmem, hacc⟩ := runPass_spec s0 readings transformed R threshold fuel hv hf
  have hmax : s'.maxv =
      ((R.map ofInt32).foldl (accStep (ofInt32 threshold)) ⟨0, 0, 0, 0, 0⟩).maxv :=
    congrArg Acc.maxv hacc
  have hT : transformedOf s' transformed R.length =
      ((R.map ofInt32).map absWord).map toInt32 := by
    unfold transformedOf; rw [readArray_transformed s0 s' transformed R hmem]
  have hz : toInt32 0 = 0 := by decide
  refine ⟨s', hrun, ?_, ?_, ?_⟩
  · have h := foldl_accStep_maxv_ge_init (ofInt32 threshold) (R.map ofInt32) ⟨0, 0, 0, 0, 0⟩
    rw [← hmax] at h
    rw [← hz]
    exact h
  · intro t ht
    rw [hT] at ht
    obtain ⟨u, hu, rfl⟩ := List.mem_map.mp ht
    obtain ⟨w, hw, rfl⟩ := List.mem_map.mp hu
    rw [hmax]
    exact foldl_accStep_maxv_ge _ _ _ w hw
  · rcases foldl_accStep_maxv_mem (ofInt32 threshold) (R.map ofInt32) ⟨0, 0, 0, 0, 0⟩ with h | h
    · left
      rw [hmax, h]
      exact hz
    · right
      rw [hT, hmax]
      exact List.mem_map_of_mem _ h

/-- Witness for C19 on readings that are all `INT32_MIN`, where `max_value` is 0. -/
theorem max_value_bounds_witness :
    ValidInput (stateWith (memWith 4096 [INT32_MIN, INT32_MIN])).mem 4096 8192
        [INT32_MIN, INT32_MIN] 5 ∧
      (∃ s', runPass 3 (stateWith (memWith 4096 [INT32_MIN, INT32_MIN])) 4096 8192
            [INT32_MIN, INT32_MIN].length 5 = some s' ∧
          0 ≤ toInt32 s'.maxv ∧
          (∀ t ∈ transformedOf s' 8192 [INT32_MIN, INT32_MIN].length, t ≤ toInt32 s'.maxv) ∧
          (toInt32 s'.maxv = 0 ∨
            toInt32 s'.maxv ∈ transformedOf s' 8192 [INT32_MIN, INT32_MIN].length)) ∧
      (runPass 3 (stateWith (memWith 4096 [INT32_MIN, INT32_MIN])) 4096 8192 2 5).map
          (fun s => toInt32 s.maxv) = some 0 :=
  ⟨by decide,
   max_value_bounds (stateWith (memWith 4096 [INT32_MIN, INT32_MIN])) 4096 8192
     [INT32_MIN, INT32_MIN] 5 3 (by decide) (by decide),
   by decide⟩

/-! ## An iteration on `INT32_MIN` -/

/-- C20: an iteration whose reading is `INT32_MIN` neither traps nor saturates:
`rsb` wraps, so `r6` and the word stored to `transformed` are `INT32_MIN` itself;
`max_value` is left unchanged; and `above_threshold_count` is incremented when
`threshold` is `INT32_MIN` and left unchanged otherwise. -/
theorem int32_min_iteration (s : State) (hr : s.mem s.rp = ofInt32 INT32_MIN)
    (ht : s.thr < 2 ^ 32) (hm : s.maxv < 2 ^ 32) :
    toInt32 (loopBody s).r6 = INT32_MIN ∧
      toInt32 ((loopBody s).mem s.tp) = INT32_MIN ∧
      (loopBody s).maxv = s.maxv ∧
      (toInt32 s.thr = INT32_MIN → (loopBody s).cnt = (s.cnt + 1) % 2 ^ 32) ∧
      (toInt32 s.thr ≠ INT32_MIN → (loopBody s).cnt = s.cnt) := by
  have hw : ofInt32 INT32_MIN = 2147483648 := by decide
  have ha : absWord 2147483648 = 2147483648 := by decide
  have hi : toInt32 2147483648 = INT32_MIN := by decide
  have hmin : INT32_MIN = -2147483648 := by decide
  rw [hw] at hr
  rw [loopBody_eq s (by rw [hr]; norm_num) ht hm]
  simp only [hr, ha, store_same, hi]
  have h1 := toInt32_cases s.thr
  have h2 := toInt32_cases s.maxv
  simp only [p32] at ht hm
  rw [hmin]
  refine ⟨trivial, trivial, ?_, ?_, ?_⟩
  · rw [if_pos (by omega)]
  · intro h; rw [if_neg (by omega)]
  · intro h; rw [if_pos (by omega)]

/-- Witness for C20 with `threshold = INT32_MIN`, `max_value = 7`, count 3:
the count becomes 4 and `max_value` stays 7. -/
theorem int32_min_iteration_witness :
    (toInt32 (loopBody stateAtMin).r6 = INT32_MIN ∧
      toInt32 ((loopBody stateAtMin).mem stateAtMin.tp) = INT32_MIN ∧
      (loopBody stateAtMin).maxv = stateAtMin.maxv ∧
      (toInt32 stateAtMin.thr = INT32_MIN →
        (loopBody stateAtMin).cnt = (stateAtMin.cnt + 1) % 2 ^ 32) ∧
      (toInt32 stateAtMin.thr ≠ INT32_MIN → (loopBody stateAtMin).cnt = stateAtMin.cnt)) ∧
      (loopBody stateAtMin).cnt = 4 ∧ (loopBody stateAtMin).maxv = 7 :=
  ⟨int32_min_iteration stateAtMin (by decide) (by decide) (by decide), by decide, by decide⟩

/-! ## The loop as an iterated body -/

theorem loopIter_zero (s : State) : loopIter 0 s = s := rfl

theorem loopIter_succ (k : Nat) (s : State) :
    loopIter (k + 1) s = loopIter k (loopBody { s with flags := subFlags s.n 0 }) := rfl

theorem loopBody_n (s : State) : (loopBody s).n = (s.n + (2 ^ 32 - 1)) % 2 ^ 32 := rfl

theorem loopBody_tp (s : State) : (loopBody s).tp = (s.tp + 4) % 2 ^ 32 := rfl

theorem loopBody_rp (s : State) : (loopBody s).rp = (s.rp + 4) % 2 ^ 32 := rfl

/-- The trip counter after `k` trips. -/
theorem loopIter_n (k : Nat) : ∀ s : State, k ≤ s.n → s.n < 2 ^ 32 →
    (loopIter k s).n = s.n - k := by
  induction k with
  | zero => intro s _ _; rfl
  | succ k ih =>
    intro s hk hn
    rw [loopIter_succ, ih _ (by rw [loopBody_n]; simp only [p32] at *; omega)
      (by rw [loopBody_n]; exact Nat.mod_lt _ (by norm_num)), loopBody_n]
    simp only [p32] at *
    omega

/-- The write pointer after `k` trips has advanced by `4 * k` bytes. -/
theorem loopIter_tp (k : Nat) : ∀ s : State,
    (loopIter k s).tp % 2 ^ 32 = (s.tp + 4 * k) % 2 ^ 32 := by
  induction k with
  | zero => intro s; rfl
  | succ k ih =>
    intro s
    rw [loopIter_succ, ih, loopBody_tp]
    simp only [p32]
    omega

/-- Block #1 runs the body exactly `n` times and then leaves through `beq 2f`. -/
theorem asmBlock1_eq_loopIter (k : Nat) : ∀ (s : State) (fuel : Nat),
    s.n = k → k < 2 ^ 32 → k < fuel →
    asmBlock1 fuel s = some { loopIter k s with flags := subFlags 0 0 } := by
  induction k with
  | zero =>
    intro s fuel hn _ hf
    obtain ⟨f, rfl⟩ : ∃ f, fuel = f + 1 := ⟨fuel - 1, by omega⟩
    have hc : condEQ (subFlags s.n 0) = true :=
      (condEQ_subFlags _ _ (by rw [hn]; norm_num) (by norm_num)).mpr hn
    rw [asmBlock1_succ, if_pos hc, loopIter_zero]
    simp only [hn]
  | succ k ih =>
    intro s fuel hn hk hf
    obtain ⟨f, rfl⟩ : ∃ f, fuel = f + 1 := ⟨fuel - 1, by omega⟩
    have hc : ¬ condEQ (subFlags s.n 0) = true := by
      rw [condEQ_subFlags _ _ (by rw [hn]; exact hk) (by norm_num), hn]
      omega
    simp only [p32] at hk
    rw [asmBlock1_succ, if_neg hc, loopIter_succ]
    exact ih _ f (by rw [loopBody_n]; show (s.n + (2 ^ 32 - 1)) % 2 ^ 32 = k
                     rw [hn, p32]; omega)
      (by rw [p32]; omega) (by omega)

theorem loopIter_succ_last (k : Nat) : ∀ s : State,
    loopIter (k + 1) s =
      loopBody { loopIter k s with flags := subFlags (loopIter k s).n 0 } := by
  induction k with
  | zero => intro s; rfl
  | succ k ih => intro s; rw [loopIter_succ, ih, loopIter_succ]

/-- Memory and accumulators after as many trips as there are words in `ws`,
from any state whose read pointer addresses `ws`. -/
theorem loopIter_run (ws : List Nat) : ∀ s : State,
    (∀ w ∈ ws, w < 2 ^ 32) → readArray s.mem s.rp ws.length = ws →
    s.rp + 4 * ws.length ≤ 2 ^ 32 → s.tp + 4 * ws.length ≤ 2 ^ 32 →
    (s.rp + 4 * ws.length ≤ s.tp ∨ s.tp + 4 * ws.length ≤ s.rp) →
    s.thr < 2 ^ 32 → s.maxv < 2 ^ 32 →
    (loopIter ws.length s).mem = writeArray s.mem s.tp (ws.map absWord) ∧
      (loopIter ws.length s).acc = ws.foldl (accStep s.thr) s.acc ∧
      (loopIter ws.length s).thr = s.thr := by
  induction ws with
  | nil => intro s _ _ _ _ _ _ _; exact ⟨rfl, rfl, rfl⟩
  | cons w ws ih =>
    intro s hw hrd hrp htp hdj hthr hmax
    simp only [List.length_cons] at hrd hrp htp hdj ⊢
    rw [readArray_succ] at hrd
    have hhead : s.mem s.rp = w := (List.cons.inj hrd).1
    have htail : readArray s.mem (s.rp + 4) ws.length = ws := (List.cons.inj hrd).2
    have hwlt : w < 2 ^ 32 := hw w (List.mem_cons_self _ _)
    have hb := loopBody_eq { s with flags := subFlags s.n 0 }
      (by show s.mem s.rp < 2 ^ 32; rw [hhead]; exact hwlt) hthr hmax
    dsimp only at hb
    rw [hhead] at hb
    have habs := absWord_lt w hwlt
    simp only [p32] at hrp htp hthr hmax habs
    have hws : ws.length = 0 ∨ 0 < ws.length := by omega
    have hrp2 : readArray (store s.mem s.tp (absWord w)) ((s.rp + 4) % 2 ^ 32) ws.length = ws := by
      rcases hws with h0 | h0
      · rw [h0, readArray_zero]; exact (List.length_eq_zero.mp h0).symm
      · rw [p32, Nat.mod_eq_of_lt (by omega), readArray_store _ _ _ _ _ (by intro i hi; omega)]
        exact htail
    have ih2 := ih (loopBody { s with flags := subFlags s.n 0 })
    rw [hb] at ih2
    dsimp only at ih2
    simp only [p32] at ih2 hrp2
    obtain ⟨hmem, hacc, hthr'⟩ := ih2
      (fun x hx => by have := hw x (List.mem_cons_of_mem _ hx); rwa [p32] at this) hrp2
      (by omega) (by omega) (by omega) hthr (by split_ifs <;> assumption)
    rw [loopIter_succ, hb]
    simp only [p32]
    refine ⟨?_, ?_, hthr'⟩
    · rw [hmem, List.map_cons, writeArray]
      rcases hws with h0 | h0
      · rw [List.length_eq_zero.mp h0]; rfl
      · rw [Nat.mod_eq_of_lt (by omega)]
    · rw [hacc, List.foldl_cons]
      simp only [accStep, State.acc, p32]

theorem readArray_add (mem : Nat → Nat) (a : Nat) : ∀ (base b : Nat),
    readArray mem base (a + b) = readArray mem base a ++ readArray mem (base + 4 * a) b := by
  induction a with
  | zero => intro base b; simp only [Nat.zero_add, readArray_zero, List.nil_append, Nat.mul_zero,
      Nat.add_zero]
  | succ a ih =>
    intro base b
    rw [show a + 1 + b = (a + b) + 1 by omega, readArray_succ, readArray_succ, ih,
      List.cons_append, show base + 4 + 4 * a = base + 4 * (a + 1) by omega]

theorem writeArray_append (xs : List Nat) : ∀ (mem : Nat → Nat) (base : Nat) (ys : List Nat),
    writeArray mem base (xs ++ ys) = writeArray (writeArray mem base xs) (base + 4 * xs.length) ys := by
  induction xs with
  | nil => intro mem base ys; rfl
  | cons x xs ih =>
    intro mem base ys
    rw [List.cons_append, writeArray, writeArray, ih, List.length_cons,
      show base + 4 + 4 * xs.length = base + 4 * (xs.length + 1) by omega]

/-- The readings array splits at any index `k` into the prefix and the suffix
that memory holds at `readings` and at `readings + 4 * k`. -/
theorem readArray_split (mem : Nat → Nat) (readings : Nat) (R : List Int) (k : Nat)
    (hk : k ≤ R.length) (hrd : readArray mem readings R.length = R.map ofInt32) :
    readArray mem readings k = (R.take k).map ofInt32 ∧
      readArray mem (readings + 4 * k) (R.length - k) = (R.drop k).map ofInt32 := by
  have h : readArray mem readings k ++ readArray mem (readings + 4 * k) (R.length - k) =
      (R.take k).map ofInt32 ++ (R.drop k).map ofInt32 := by
    rw [← readArray_add, ← List.map_append, List.take_append_drop,
      show k + (R.length - k) = R.length by omega, hrd]
  have hl : (readArray mem readings k).length = ((R.take k).map ofInt32).length := by
    rw [readArray_length, List.length_map, List.length_take, Nat.min_eq_left hk]
  exact List.append_inj h hl

/-- A prefix of a well-formed input is a well-formed input. -/
theorem validInput_take (mem : Nat → Nat) (readings transformed : Nat) (R : List Int)
    (threshold : Int) (k : Nat) (hk : k ≤ R.length)
    (hv : ValidInput mem readings transformed R threshold) :
    ValidInput mem readings transformed (R.take k) threshold := by
  obtain ⟨hR, ht, hrd, hrp, htp, hdj⟩ := hv
  have hl : (R.take k).length = k := by rw [List.length_take, Nat.min_eq_left hk]
  unfold NoOverlap at hdj
  simp only [p32] at hrp htp
  refine ⟨fun r hr => hR r (List.mem_of_mem_take hr), ht, ?_, ?_, ?_, ?_⟩
  · rw [hl]; exact (readArray_split mem readings R k hk hrd).1
  · rw [hl, p32]; omega
  · rw [hl, p32]; omega
  · unfold NoOverlap; rw [hl]; omega

theorem foldl_accStep_maxv_lt (thr : Nat) (ws : List Nat) (a : Acc) (ha : a.maxv < 2 ^ 32)
    (hws : ∀ w ∈ ws, w < 2 ^ 32) : (ws.foldl (accStep thr) a).maxv < 2 ^ 32 := by
  rcases foldl_accStep_maxv_mem thr ws a with h | h
  · rw [h]; exact ha
  · obtain ⟨w, hw, hw'⟩ := List.mem_map.mp h
    rw [← hw']
    exact absWord_lt w (hws w hw)

/-- State after `k` trips of the pass on `R`, for `k` up to the length of `R`. -/
theorem loopIter_take (s0 : State) (readings transformed : Nat) (R : List Int)
    (threshold : Int) (k : Nat)
    (hv : ValidInput s0.mem readings transformed R threshold) (hk : k ≤ R.length) :
    (loopIter k (block1Entry s0 readings transformed R.length (ofInt32 threshold))).mem =
        writeArray s0.mem transformed (((R.take k).map ofInt32).map absWord) ∧
      (loopIter k (block1Entry s0 readings transformed R.length (ofInt32 threshold))).acc =
        ((R.take k).map ofInt32).foldl (accStep (ofInt32 threshold)) ⟨0, 0, 0, 0, 0⟩ := by
  obtain ⟨_, _, hrd, hrp, htp, hdj⟩ := validInput_take s0.mem readings transformed R threshold k hk hv
  have hl : ((R.take k).map ofInt32).length = k := by
    rw [List.length_map, List.length_take, Nat.min_eq_left hk]
  have hl' : (R.take k).length = k := by rw [List.length_take, Nat.min_eq_left hk]
  rw [hl'] at hrd hrp htp hdj
  have h := loopIter_run ((R.take k).map ofInt32)
    (block1Entry s0 readings transformed R.length (ofInt32 threshold))
    (by intro w hw
        obtain ⟨x, _, rfl⟩ := List.mem_map.mp hw
        exact ofInt32_lt x)
    (by rw [hl]; exact hrd) (by rw [hl]; exact hrp) (by rw [hl]; exact htp)
    (by rw [hl]; exact hdj) (ofInt32_lt threshold) (by show 0 < 2 ^ 32; norm_num)
  rw [hl] at h
  exact ⟨h.1, h.2.1⟩

/-- Final state of the pass, with the threshold register. -/
theorem runPass_spec_thr (s0 : State) (readings transformed : Nat) (R : List Int)
    (threshold : Int) (fuel : Nat)
    (hv : ValidInput s0.mem readings transformed R threshold) (hf : R.length < fuel) :
    ∃ s', runPass fuel s0 readings transformed R.length threshold = some s' ∧
      s'.mem = writeArray s0.mem transformed ((R.map ofInt32).map absWord) ∧
      s'.acc = (R.map ofInt32).foldl (accStep (ofInt32 threshold)) ⟨0, 0, 0, 0, 0⟩ ∧
      s'.thr = ofInt32 threshold := by
  obtain ⟨_, _, hrd, hrp, htp, hdj⟩ := hv
  have hlen : (R.map ofInt32).length = R.length := List.length_map _ _
  have h := asmBlock1_run (R.map ofInt32)
    (block1Entry s0 readings transformed R.length (ofInt32 threshold)) fuel
    (by rw [hlen]; exact hf) (by rw [hlen]; rfl)
    (by intro w hw
        obtain ⟨x, _, rfl⟩ := List.mem_map.mp hw
        exact ofInt32_lt x)
    (by rw [hlen]; exact hrd) (by rw [hlen]; exact hrp) (by rw [hlen]; exact htp)
    (by rw [hlen]; exact hdj) (ofInt32_lt threshold) (by show 0 < 2 ^ 32; norm_num)
  obtain ⟨s', hrun, hmem, hacc, hthr, _⟩ := h
  exact ⟨s', hrun, hmem, hacc, hthr⟩

/-- With fuel for at most `n` visits of label `1` the block has not left yet. -/
theorem asmBlock1_none (fuel : Nat) : ∀ s : State, s.n < 2 ^ 32 → fuel ≤ s.n →
    asmBlock1 fuel s = none := by
  induction fuel with
  | zero => intro s _ _; rfl
  | succ f ih =>
    intro s hn hf
    have hc : ¬ condEQ (subFlags s.n 0) = true := by
      rw [condEQ_subFlags _ _ hn (by norm_num)]
      omega
    simp only [p32] at hn
    rw [asmBlock1_succ, if_neg hc]
    exact ih _ (by rw [loopBody_n]; exact Nat.mod_lt _ (by norm_num))
      (by rw [loopBody_n]; show f ≤ (s.n + (2 ^ 32 - 1)) % 2 ^ 32; rw [p32]; omega)

/-! ## Termination and the number of iterations -/

/-- C12: for every sequence of readings of length `n` the pass terminates; its
final state is the state after exactly `n` trips round the loop, followed by the
exit test; the exit branch is not taken before any earlier trip; trip `k` stores
one word, the transformed value of `R[k]`, at `transformed + 4 * k`; the write
pointer has advanced by `4 * n` bytes; and memory at the end is the entry memory
with exactly the `n` transformed words stored from `transformed`, so that
`transformed` read back has as many entries as `readings`; with fuel for only
`n` visits of the loop label the block has not yet left. -/
theorem pass_iterations (s0 : State) (readings transformed : Nat) (R : List Int)
    (threshold : Int) (fuel : Nat)
    (hv : ValidInput s0.mem readings transformed R threshold) (hf : R.length < fuel) :
    ∃ s', runPass fuel s0 readings transformed R.length threshold = some s' ∧
      s' = { loopIter R.length (block1Entry s0 readings transformed R.length (ofInt32 threshold))
             with flags := subFlags 0 0 } ∧
      (∀ k, k < R.length → condEQ (subFlags
        (loopIter k (block1Entry s0 readings transformed R.length (ofInt32 threshold))).n 0) =
          false) ∧
      (∀ (k : Nat) (hk : k < R.length),
        (loopIter (k + 1)
            (block1Entry s0 readings transformed R.length (ofInt32 threshold))).mem =
          store (loopIter k
              (block1Entry s0 readings transformed R.length (ofInt32 threshold))).mem
            (transformed + 4 * k) (absWord (ofInt32 R[k]))) ∧
      s'.tp % 2 ^ 32 = (transformed + 4 * R.length) % 2 ^ 32 ∧
      s'.mem = writeArray s0.mem transformed ((R.map ofInt32).map absWord) ∧
      ((R.map ofInt32).map absWord).length = R.length ∧
      readArray s'.mem transformed R.length = (R.map ofInt32).map absWord ∧
      (transformedOf s' transformed R.length).length = R.length ∧
      runPass R.length s0 readings transformed R.length threshold = none := by
  have hlen := hv.2.2.2.1
  simp only [p32] at hlen
  have hn : R.length < 2 ^ 32 := by rw [p32]; omega
  have hrun := asmBlock1_eq_loopIter R.length
    (block1Entry s0 readings transformed R.length (ofInt32 threshold)) fuel rfl hn hf
  have hmem := (loopIter_take s0 readings transformed R threshold R.length hv (le_refl _)).1
  rw [List.take_length] at hmem
  have hread : readArray (loopIter R.length
      (block1Entry s0 readings transformed R.length (ofInt32 threshold))).mem transformed
      R.length = (R.map ofInt32).map absWord :=
    readArray_transformed s0 _ transformed R hmem
  refine ⟨_, hrun, rfl, ?_, ?_, ?_, hmem, ?_, hread, ?_,
    asmBlock1_none R.length _ hn (le_refl _)⟩
  · intro k hk
    have hk' := loopIter_n k (block1Entry s0 readings transformed R.length (ofInt32 threshold))
      (le_of_lt hk) hn
    have hne : ¬ condEQ (subFlags
        (loopIter k (block1Entry s0 readings transformed R.length (ofInt32 threshold))).n 0) =
          true := by
      rw [condEQ_subFlags _ _ (by rw [hk', p32]
                                  show R.length - k < 4294967296
                                  omega) (by norm_num), hk']
      show R.length - k ≠ 0
      omega
    exact Bool.eq_false_iff.mpr hne
  · intro k hk
    have ha := (loopIter_take s0 readings transformed R threshold k hv (le_of_lt hk)).1
    have hb := (loopIter_take s0 readings transformed R threshold (k + 1) hv hk).1
    have hl : (((R.take k).map ofInt32).map absWord).length = k := by
      rw [List.length_map, List.length_map, List.length_take, Nat.min_eq_left (le_of_lt hk)]
    have happ := writeArray_append (((R.take k).map ofInt32).map absWord) s0.mem transformed
      [absWord (ofInt32 R[k])]
    rw [hl] at happ
    rw [hb, ha, List.take_succ, List.getElem?_eq_getElem hk]
    simp only [Option.toList, List.map_append, List.map_cons, List.map_nil]
    rw [happ]
    rfl
  · exact loopIter_tp R.length _
  · simp only [List.length_map]
  · unfold transformedOf
    rw [List.length_map, readArray_length]

/-- Witness for C12 on four readings: four words `1, 2, 3, 4` are stored and
the write pointer ends at `8192 + 16`. -/
theorem pass_iterations_witness :
    ValidInput (stateWith (memWith 4096 [1, -2, 3, -4])).mem 4096 8192 [1, -2, 3, -4] 2 ∧
      (∃ s', runPass 5 (stateWith (memWith 4096 [1, -2, 3, -4])) 4096 8192
          [(1 : Int), -2, 3, -4].length 2 = some s' ∧
        s' = { loopIter [(1 : Int), -2, 3, -4].length
                 (block1Entry (stateWith (memWith 4096 [1, -2, 3, -4])) 4096 8192
                   [(1 : Int), -2, 3, -4].length (ofInt32 2))
               with flags := subFlags 0 0 } ∧
        (∀ k, k < [(1 : Int), -2, 3, -4].length → condEQ (subFlags
          (loopIter k (block1Entry (stateWith (memWith 4096 [1, -2, 3, -4])) 4096 8192
            [(1 : Int), -2, 3, -4].length (ofInt32 2))).n 0) = false) ∧
        (∀ (k : Nat) (hk : k < [(1 : Int), -2, 3, -4].length),
          (loopIter (k + 1) (block1Entry (stateWith (memWith 4096 [1, -2, 3, -4])) 4096 8192
              [(1 : Int), -2, 3, -4].length (ofInt32 2))).mem =
            store (loopIter k (block1Entry (stateWith (memWith 4096 [1, -2, 3, -4])) 4096 8192
                [(1 : Int), -2, 3, -4].length (ofInt32 2))).mem
              (8192 + 4 * k) (absWord (ofInt32 [(1 : Int), -2, 3, -4][k]))) ∧
        s'.tp % 2 ^ 32 = (8192 + 4 * [(1 : Int), -2, 3, -4].length) % 2 ^ 32 ∧
        s'.mem = writeArray (stateWith (memWith 4096 [1, -2, 3, -4])).mem 8192
          (([(1 : Int), -2, 3, -4].map ofInt32).map absWord) ∧
        (([(1 : Int), -2, 3, -4].map ofInt32).map absWord).length =
          [(1 : Int), -2, 3, -4].length ∧
        readArray s'.mem 8192 [(1 : Int), -2, 3, -4].length =
          ([(1 : Int), -2, 3, -4].map ofInt32).map absWord ∧
        (transformedOf s' 8192 [(1 : Int), -2, 3, -4].length).length =
          [(1 : Int), -2, 3, -4].length ∧
        runPass [(1 : Int), -2, 3, -4].length (stateWith (memWith 4096 [1, -2, 3, -4])) 4096 8192
          [(1 : Int), -2, 3, -4].length 2 = none) ∧
      (runPass 5 (stateWith (memWith 4096 [1, -2, 3, -4])) 4096 8192 4 2).map
          (fun s => (readArray s.mem 8192 4, s.tp, s.n)) = some ([1, 2, 3, 4], 8208, 0) :=
  ⟨by decide,
   pass_iterations (stateWith (memWith 4096 [1, -2, 3, -4])) 4096 8192 [1, -2, 3, -4] 2 5
     (by decide) (by decide),
   by decide⟩

/-! ## The single-pass invariant -/

/-- C14: for every sequence of readings and every `k <= len`, the pass on the
first `k` readings alone terminates, and after `k` trips of the pass on all
readings the accumulators and the first `k` entries of `transformed` equal its
result; and block #1 resumed from that result on the remaining `len - k`
readings ends with the memory and accumulators of the pass on all readings. -/
theorem single_pass_invariant (s0 : State) (readings transformed : Nat) (R : List Int)
    (threshold : Int) (fuel k : Nat)
    (hv : ValidInput s0.mem readings transformed R threshold) (hf : R.length < fuel)
    (hk : k ≤ R.length) :
    ∃ sk s2 s', runPass fuel s0 readings transformed k threshold = some sk ∧
      (loopIter k (block1Entry s0 readings transformed R.length (ofInt32 threshold))).acc =
        sk.acc ∧
      readArray (loopIter k
          (block1Entry s0 readings transformed R.length (ofInt32 threshold))).mem transformed k =
        readArray sk.mem transformed k ∧
      runPass fuel s0 readings transformed R.length threshold = some s' ∧
      asmBlock1 fuel { sk with rp := readings + 4 * k, tp := transformed + 4 * k,
                               n := R.length - k } = some s2 ∧
      s2.mem = s'.mem ∧ s2.acc = s'.acc := by
  have hvk := validInput_take s0.mem readings transformed R threshold k hk hv
  have hl : (R.take k).length = k := by rw [List.length_take, Nat.min_eq_left hk]
  obtain ⟨sk, hrunk, hmemk, hacck, hthrk⟩ :=
    runPass_spec_thr s0 readings transformed (R.take k) threshold fuel hvk (by rw [hl]; omega)
  rw [hl] at hrunk
  obtain ⟨s', hrun, hmem, hacc⟩ := runPass_spec s0 readings transformed R threshold fuel hv hf
  obtain ⟨hpm, hpa⟩ := loopIter_take s0 readings transformed R threshold k hv hk
  obtain ⟨hR, _, hrd, hrp, htp, hdj⟩ := hv
  unfold NoOverlap at hdj
  simp only [p32] at hrp htp
  have hlx : (((R.take k).map ofInt32).map absWord).length = k := by
    rw [List.length_map, List.length_map, hl]
  have hly : ((R.drop k).map ofInt32).length = R.length - k := by
    rw [List.length_map, List.length_drop]
  have hwlt : ∀ (L : List Int), ∀ w ∈ L.map ofInt32, w < 2 ^ 32 := by
    intro L w hw
    obtain ⟨x, _, rfl⟩ := List.mem_map.mp hw
    exact ofInt32_lt x
  have hsuffix : readArray sk.mem (readings + 4 * k) (R.length - k) = (R.drop k).map ofInt32 := by
    rw [← (readArray_split s0.mem readings R k hk hrd).2]
    apply readArray_congr
    intro i hi
    rw [hmemk]
    exact writeArray_of_not_mem _ _ _ _ (by rw [hlx]; intro j hj; omega)
  have h2 := asmBlock1_run ((R.drop k).map ofInt32)
    { sk with rp := readings + 4 * k, tp := transformed + 4 * k, n := R.length - k } fuel
    (by rw [hly]; omega) (by rw [hly]) (hwlt _) (by rw [hly]; exact hsuffix)
    (by rw [hly, p32]; show readings + 4 * k + 4 * (R.length - k) ≤ 4294967296; omega)
    (by rw [hly, p32]; show transformed + 4 * k + 4 * (R.length - k) ≤ 4294967296; omega)
    (by rw [hly]
        show readings + 4 * k + 4 * (R.length - k) ≤ transformed + 4 * k ∨
          transformed + 4 * k + 4 * (R.length - k) ≤ readings + 4 * k
        omega)
    (by show sk.thr < 2 ^ 32; rw [hthrk]; exact ofInt32_lt threshold)
    (by show sk.maxv < 2 ^ 32
        have : sk.maxv = _ := congrArg Acc.maxv hacck
        rw [this]
        exact foldl_accStep_maxv_lt _ _ _ (by show 0 < 2 ^ 32; norm_num) (hwlt _))
  obtain ⟨s2, hrun2, hmem2, hacc2, _, _⟩ := h2
  refine ⟨sk, s2, s', hrunk, ?_, ?_, hrun, hrun2, ?_, ?_⟩
  · rw [hpa, hacck]
  · rw [hpm, hmemk]
  · rw [hmem2, hmem]
    show writeArray sk.mem (transformed + 4 * k) (((R.drop k).map ofInt32).map absWord) = _
    have happ := writeArray_append (((R.take k).map ofInt32).map absWord) s0.mem transformed
      (((R.drop k).map ofInt32).map absWord)
    rw [hlx] at happ
    rw [hmemk, ← happ, ← List.map_append, ← List.map_append, List.take_append_drop]
  · rw [hacc2, hacc]
    show ((R.drop k).map ofInt32).foldl (accStep sk.thr) sk.acc = _
    rw [hthrk, hacck, ← List.foldl_append, ← List.map_append, List.take_append_drop]

/-- Witness for C14: the pass on `[3, -5, 6, -1]` split after two readings. -/
theorem single_pass_invariant_witness :
    ValidInput (stateWith (memWith 4096 [3, -5, 6, -1])).mem 4096 8192 [3, -5, 6, -1] 4 ∧
      ∃ sk s2 s', runPass 5 (stateWith (memWith 4096 [3, -5, 6, -1])) 4096 8192 2 4 = some sk ∧
        (loopIter 2 (block1Entry (stateWith (memWith 4096 [3, -5, 6, -1])) 4096 8192
          [(3 : Int), -5, 6, -1].length (ofInt32 4))).acc = sk.acc ∧
        readArray (loopIter 2 (block1Entry (stateWith (memWith 4096 [3, -5, 6, -1])) 4096 8192
          [(3 : Int), -5, 6, -1].length (ofInt32 4))).mem 8192 2 = readArray sk.mem 8192 2 ∧
        runPass 5 (stateWith (memWith 4096 [3, -5, 6, -1])) 4096 8192
          [(3 : Int), -5, 6, -1].length 4 = some s' ∧
        asmBlock1 5 { sk with rp := 4096 + 4 * 2, tp := 8192 + 4 * 2,
                              n := [(3 : Int), -5, 6, -1].length - 2 } = some s2 ∧
        s2.mem = s'.mem ∧ s2.acc = s'.acc :=
  ⟨by decide,
   single_pass_invariant (stateWith (memWith 4096 [3, -5, 6, -1])) 4096 8192 [3, -5, 6, -1] 4 5 2
     (by decide) (by decide) (by decide)⟩

/-! ## Monotone accumulators -/

theorem foldl_accStep_cnt_le (thr : Nat) (ws : List Nat) :
    (ws.foldl (accStep thr) ⟨0, 0, 0, 0, 0⟩).cnt ≤ ws.length := by
  rw [foldl_accStep_cnt _ _ _ (by show 0 < 2 ^ 32; norm_num)]
  have h := List.countP_le_length (fun w => decide (toInt32 thr ≤ toInt32 (absWord w))) (l := ws)
  simp only [p32, Nat.zero_add]
  omega

/-- C15: for every sequence of readings and every iteration `k < len` of the
pass, the state after the iteration is the loop body applied to the state
before it, and across the iteration `max_value` and `above_threshold_count` do
not decrease (as signed values) and every bit set in `combined_or` stays set. -/
theorem accumulators_monotone (s0 : State) (readings transformed : Nat) (R : List Int)
    (threshold : Int) (k : Nat)
    (hv : ValidInput s0.mem readings transformed R threshold) (hk : k < R.length) :
    loopIter (k + 1) (block1Entry s0 readings transformed R.length (ofInt32 threshold)) =
        loopBody
          { loopIter k (block1Entry s0 readings transformed R.length (ofInt32 threshold)) with
            flags := subFlags
              (loopIter k (block1Entry s0 readings transformed R.length (ofInt32 threshold))).n 0 } ∧
      toInt32 (loopIter k (block1Entry s0 readings transformed R.length (ofInt32 threshold))).maxv ≤
        toInt32 (loopIter (k + 1)
          (block1Entry s0 readings transformed R.length (ofInt32 threshold))).maxv ∧
      toInt32 (loopIter k (block1Entry s0 readings transformed R.length (ofInt32 threshold))).cnt ≤
        toInt32 (loopIter (k + 1)
          (block1Entry s0 readings transformed R.length (ofInt32 threshold))).cnt ∧
      ∀ i, (loopIter k
            (block1Entry s0 readings transformed R.length (ofInt32 threshold))).orv.testBit i = true →
        (loopIter (k + 1)
            (block1Entry s0 readings transformed R.length (ofInt32 threshold))).orv.testBit i = true := by
  have ha := (loopIter_take s0 readings transformed R threshold k hv (le_of_lt hk)).2
  have hb := (loopIter_take s0 readings transformed R threshold (k + 1) hv hk).2
  have hstep : (loopIter (k + 1)
      (block1Entry s0 readings transformed R.length (ofInt32 threshold))).acc =
      accStep (ofInt32 threshold)
        (loopIter k (block1Entry s0 readings transformed R.length (ofInt32 threshold))).acc
        (ofInt32 R[k]) := by
    rw [hb, ha, List.take_succ, List.getElem?_eq_getElem hk]
    simp only [Option.toList, List.map_append, List.foldl_append, List.map_cons, List.map_nil,
      List.foldl_cons, List.foldl_nil]
  have hcnt : (loopIter k
      (block1Entry s0 readings transformed R.length (ofInt32 threshold))).cnt ≤ k := by
    have h1 : (loopIter k
        (block1Entry s0 readings transformed R.length (ofInt32 threshold))).cnt = _ :=
      congrArg Acc.cnt ha
    have h2 := foldl_accStep_cnt_le (ofInt32 threshold) ((R.take k).map ofInt32)
    rw [List.length_map, List.length_take, Nat.min_eq_left (le_of_lt hk)] at h2
    rw [h1]; exact h2
  have hlen := hv.2.2.2.1
  simp only [p32] at hlen
  have hm : (loopIter (k + 1)
      (block1Entry s0 readings transformed R.length (ofInt32 threshold))).maxv = _ :=
    congrArg Acc.maxv hstep
  have hc : (loopIter (k + 1)
      (block1Entry s0 readings transformed R.length (ofInt32 threshold))).cnt = _ :=
    congrArg Acc.cnt hstep
  have ho : (loopIter (k + 1)
      (block1Entry s0 readings transformed R.length (ofInt32 threshold))).orv = _ :=
    congrArg Acc.orv hstep
  refine ⟨loopIter_succ_last k _, ?_, ?_, ?_⟩
  · rw [hm, accStep_maxv]
    show toInt32 (loopIter k _).maxv ≤
      toInt32 (if toInt32 (absWord (ofInt32 R[k])) ≤ toInt32 (loopIter k _).maxv
        then (loopIter k _).maxv else absWord (ofInt32 R[k]))
    split_ifs <;> omega
  · rw [hc]
    show toInt32 (loopIter k _).cnt ≤
      toInt32 (if toInt32 (absWord (ofInt32 R[k])) < toInt32 (ofInt32 threshold)
        then (loopIter k _).cnt else ((loopIter k _).cnt + 1) % 2 ^ 32)
    have t1 := toInt32_cases (loopIter k
      (block1Entry s0 readings transformed R.length (ofInt32 threshold))).cnt
    have t2 := toInt32_cases (((loopIter k
      (block1Entry s0 readings transformed R.length (ofInt32 threshold))).cnt + 1) % 4294967296)
    rw [p32]
    split_ifs
    · exact le_refl _
    · omega
  · intro i hi
    rw [ho]
    show ((loopIter k _).orv ||| absWord (ofInt32 R[k])).testBit i = true
    rw [Nat.testBit_or, hi, Bool.true_or]

/-- Witness for C15: the third iteration of the pass on `[2, -9, 12, 1]`. -/
theorem accumulators_monotone_witness :
    ValidInput (stateWith (memWith 4096 [2, -9, 12, 1])).mem 4096 8192 [2, -9, 12, 1] 5 ∧
      (loopIter (2 + 1) (block1Entry (stateWith (memWith 4096 [2, -9, 12, 1])) 4096 8192
          [(2 : Int), -9, 12, 1].length (ofInt32 5)) =
        loopBody
          { loopIter 2 (block1Entry (stateWith (memWith 4096 [2, -9, 12, 1])) 4096 8192
              [(2 : Int), -9, 12, 1].length (ofInt32 5)) with
            flags := subFlags
              (loopIter 2 (block1Entry (stateWith (memWith 4096 [2, -9, 12, 1])) 4096 8192
                [(2 : Int), -9, 12, 1].length (ofInt32 5))).n 0 } ∧
      toInt32 (loopIter 2 (block1Entry (stateWith (memWith 4096 [2, -9, 12, 1])) 4096 8192
          [(2 : Int), -9, 12, 1].length (ofInt32 5))).maxv ≤
        toInt32 (loopIter (2 + 1) (block1Entry (stateWith (memWith 4096 [2, -9, 12, 1])) 4096 8192
          [(2 : Int), -9, 12, 1].length (ofInt32 5))).maxv ∧
      toInt32 (loopIter 2 (block1Entry (stateWith (memWith 4096 [2, -9, 12, 1])) 4096 8192
          [(2 : Int), -9, 12, 1].length (ofInt32 5))).cnt ≤
        toInt32 (loopIter (2 + 1) (block1Entry (stateWith (memWith 4096 [2, -9, 12, 1])) 4096 8192
          [(2 : Int), -9, 12, 1].length (ofInt32 5))).cnt ∧
      ∀ i, (loopIter 2 (block1Entry (stateWith (memWith 4096 [2, -9, 12, 1])) 4096 8192
            [(2 : Int), -9, 12, 1].length (ofInt32 5))).orv.testBit i = true →
        (loopIter (2 + 1) (block1Entry (stateWith (memWith 4096 [2, -9, 12, 1])) 4096 8192
            [(2 : Int), -9, 12, 1].length (ofInt32 5))).orv.testBit i = true) ∧
      (toInt32 (loopIter 2 (block1Entry (stateWith (memWith 4096 [2, -9, 12, 1])) 4096 8192 4
          (ofInt32 5))).maxv,
        toInt32 (loopIter 3 (block1Entry (stateWith (memWith 4096 [2, -9, 12, 1])) 4096 8192 4
          (ofInt32 5))).maxv) = (9, 12) :=
  ⟨by decide,
   accumulators_monotone (stateWith (memWith 4096 [2, -9, 12, 1])) 4096 8192 [2, -9, 12, 1] 5 2
     (by decide) (by decide),
   by decide⟩

/-! ## Parity -/

theorem foldl_xor_mod_two (ts : List Nat) : ∀ a : Nat,
    (ts.foldl (· ^^^ ·) a) % 2 = (a + ts.sum) % 2 := by
  induction ts with
  | nil => intro a; rfl
  | cons t ts ih =>
    intro a
    rw [List.foldl_cons, ih, List.sum_cons]
    have h := @Nat.xor_mod_two_eq a t
    omega

theorem absWord_ofInt32_mod_two (r : Int) :
    absWord (ofInt32 r) % 2 = if r % 2 = 1 then 1 else 0 := by
  unfold absWord ofInt32
  simp only [p31, p32, q32]
  split_ifs <;> omega

theorem sum_absWord_mod_two (R : List Int) :
    ((R.map ofInt32).map absWord).sum % 2 = R.countP (fun r => decide (r % 2 = 1)) % 2 := by
  induction R with
  | nil => rfl
  | cons r R ih =>
    simp only [List.map_cons, List.sum_cons, List.countP_cons, decide_eq_true_eq]
    have h := absWord_ofInt32_mod_two r
    split_ifs at h ⊢ <;> omega

/-- C16: for every sequence of readings, `INT32_MIN` included, and every
threshold, the `final_parity` that block #2 derives from the pass's
`combined_xor` equals `total_sum & 1` and equals the number of odd readings
modulo 2. -/
theorem final_parity_eq_sum_parity (s0 : State) (readings transformed : Nat) (R : List Int)
    (threshold : Int) (fuel : Nat)
    (hv : ValidInput s0.mem readings transformed R threshold) (hf : R.length < fuel) :
    ∃ s', runPass fuel s0 readings transformed R.length threshold = some s' ∧
      ∀ t : State2, t.mem t.xor_ptr = s'.xorv →
        (asmBlock2 t).mem t.par_ptr = s'.sum &&& 1 ∧
        toInt32 ((asmBlock2 t).mem t.par_ptr) =
          ((R.countP (fun r => decide (r % 2 = 1)) % 2 : Nat) : Int) := by
  obtain ⟨s', hrun, _, hacc⟩ := runPass_spec s0 readings transformed R threshold fuel hv hf
  have hsum : s'.sum = _ := congrArg Acc.sum hacc
  have hxor : s'.xorv = _ := congrArg Acc.xorv hacc
  rw [foldl_accStep_sum _ _ _ (by show 0 < 2 ^ 32; norm_num)] at hsum
  rw [foldl_accStep_xorv] at hxor
  have hx2 : s'.xorv % 2 = ((R.map ofInt32).map absWord).sum % 2 := by
    rw [hxor, foldl_xor_mod_two]
    show (0 + _) % 2 = _
    rw [Nat.zero_add]
  have hs2 : s'.sum % 2 = ((R.map ofInt32).map absWord).sum % 2 := by
    rw [hsum]
    show ((0 + _) % 2 ^ 32) % 2 = _
    rw [Nat.zero_add, p32]
    omega
  have hodd := sum_absWord_mod_two R
  refine ⟨s', hrun, ?_⟩
  intro t ht
  have hpar : (asmBlock2 t).mem t.par_ptr = s'.xorv % 2 := by
    rw [asmBlock2_mem, store_same, ht, Nat.and_one_is_mod]
  refine ⟨?_, ?_⟩
  · rw [hpar, Nat.and_one_is_mod, hx2, hs2]
  · rw [hpar, hx2, hodd]
    have h1 := toInt32_cases (R.countP (fun r => decide (r % 2 = 1)) % 2)
    omega

/-- Witness for C16 on `[INT32_MIN, 3, -5, 7]` (three odd readings, parity 1). -/
theorem final_parity_eq_sum_parity_witness :
    ValidInput (stateWith (memWith 4096 [INT32_MIN, 3, -5, 7])).mem 4096 8192
        [INT32_MIN, 3, -5, 7] 5 ∧
      (∃ s', runPass 5 (stateWith (memWith 4096 [INT32_MIN, 3, -5, 7])) 4096 8192
            [INT32_MIN, 3, -5, 7].length 5 = some s' ∧
          ∀ t : State2, t.mem t.xor_ptr = s'.xorv →
            (asmBlock2 t).mem t.par_ptr = s'.sum &&& 1 ∧
            toInt32 ((asmBlock2 t).mem t.par_ptr) =
              (([INT32_MIN, 3, -5, 7].countP (fun r => decide (r % 2 = 1)) % 2 : Nat) : Int)) ∧
      (runPass 5 (stateWith (memWith 4096 [INT32_MIN, 3, -5, 7])) 4096 8192 4 5).map
          (fun s => (s.xorv &&& 1, s.sum &&& 1)) = some (1, 1) :=
  ⟨by decide,
   final_parity_eq_sum_parity (stateWith (memWith 4096 [INT32_MIN, 3, -5, 7])) 4096 8192
     [INT32_MIN, 3, -5, 7] 5 5 (by decide) (by decide),
   by decide⟩

/-! ## Order between the reductions -/

theorem or_le_add (a : Nat) : ∀ b : Nat, a ||| b ≤ a + b := by
  induction a using Nat.strongRecOn with
  | _ a ih =>
    intro b
    rcases Nat.eq_zero_or_pos a with h0 | hpos
    · rw [h0, Nat.zero_or, Nat.zero_add]
    · have hdiv := ih (a / 2) (by omega) (b / 2)
      rw [← Nat.or_div_two] at hdiv
      have hmod : (a ||| b) % 2 ≤ a % 2 + b % 2 := by
        rcases Nat.mod_two_eq_zero_or_one (a ||| b) with h | h
        · omega
        · have := (@Nat.or_mod_two_eq_one a b).mp h
          omega
      omega

theorem left_le_or (a b : Nat) : a ≤ a ||| b :=
  Nat.le_of_testBit (fun i hi => by rw [Nat.testBit_or, hi, Bool.true_or])

theorem right_le_or (a b : Nat) : b ≤ a ||| b :=
  Nat.le_of_testBit (fun i hi => by rw [Nat.testBit_or, hi, Bool.or_true])

theorem foldl_or_le_add (ts : List Nat) : ∀ a : Nat, ts.foldl (· ||| ·) a ≤ a + ts.sum := by
  induction ts with
  | nil => intro a; exact Nat.le_refl _
  | cons t ts ih =>
    intro a
    rw [List.foldl_cons, List.sum_cons]
    have h1 := ih (a ||| t)
    have h2 := or_le_add a t
    omega

theorem le_foldl_or_init (ts : List Nat) : ∀ a : Nat, a ≤ ts.foldl (· ||| ·) a := by
  induction ts with
  | nil => intro a; exact Nat.le_refl _
  | cons t ts ih => intro a; exact le_trans (left_le_or a t) (ih _)

theorem le_foldl_or_of_mem (ts : List Nat) : ∀ a : Nat, ∀ t ∈ ts, t ≤ ts.foldl (· ||| ·) a := by
  induction ts with
  | nil => intro a t ht; cases ht
  | cons u ts ih =>
    intro a t ht
    rw [List.foldl_cons]
    rcases List.mem_cons.mp ht with rfl | h
    · exact le_trans (right_le_or a t) (le_foldl_or_init ts _)
    · exact ih _ t h

theorem foldl_xor_le_foldl_or (ts : List Nat) : ∀ a b : Nat,
    (∀ i, a.testBit i = true → b.testBit i = true) →
    ∀ i, (ts.foldl (· ^^^ ·) a).testBit i = true → (ts.foldl (· ||| ·) b).testBit i = true := by
  induction ts with
  | nil => intro a b h; exact h
  | cons t ts ih =>
    intro a b h
    rw [List.foldl_cons, List.foldl_cons]
    apply ih
    intro i hi
    rw [Nat.testBit_xor] at hi
    rw [Nat.testBit_or]
    cases hA : a.testBit i <;> cases hT : t.testBit i <;> simp_all

/-- The words of `transformed` add up to the sum of the absolute values when
no reading is `INT32_MIN`. -/
theorem sum_absWord_eq (R : List Int) (hR : ∀ r ∈ R, IsInt32 r)
    (hmin : ∀ r ∈ R, r ≠ INT32_MIN) :
    ((((R.map ofInt32).map absWord).sum : Nat) : Int) = (R.map (fun r => |r|)).sum := by
  induction R with
  | nil => rfl
  | cons r R ih =>
    simp only [List.map_cons, List.sum_cons, Nat.cast_add]
    rw [ih (fun x hx => hR x (List.mem_cons_of_mem _ hx))
      (fun x hx => hmin x (List.mem_cons_of_mem _ hx))]
    have h := toInt32_absWord r (hR r (List.mem_cons_self _ _))
    rw [if_neg (hmin r (List.mem_cons_self _ _))] at h
    have h1 := toInt32_cases (absWord (ofInt32 r))
    have h2 := abs_nonneg r
    have h3 := absWord_lt _ (ofInt32_lt r)
    rw [p32] at h3
    omega

/-- C17: for every sequence of readings in which no reading is `INT32_MIN` and
the sum of the absolute values is below `2 ^ 31`, the pass terminates with
`combined_xor <= combined_or` and `max_value <= combined_or <= total_sum`. -/
theorem reductions_ordered (s0 : State) (readings transformed : Nat) (R : List Int)
    (threshold : Int) (fuel : Nat)
    (hv : ValidInput s0.mem readings transformed R threshold) (hf : R.length < fuel)
    (hmin : ∀ r ∈ R, r ≠ INT32_MIN) (hsum : (R.map (fun r => |r|)).sum < 2 ^ 31) :
    ∃ s', runPass fuel s0 readings transformed R.length threshold = some s' ∧
      toInt32 s'.xorv ≤ toInt32 s'.orv ∧ toInt32 s'.maxv ≤ toInt32 s'.orv ∧
      toInt32 s'.orv ≤ toInt32 s'.sum := by
  obtain ⟨s', hrun, _, hacc⟩ := runPass_spec s0 readings transformed R threshold fuel hv hf
  have hs : s'.sum = _ := congrArg Acc.sum hacc
  have hx : s'.xorv = _ := congrArg Acc.xorv hacc
  have ho : s'.orv = _ := congrArg Acc.orv hacc
  have hm : s'.maxv = _ := congrArg Acc.maxv hacc
  rw [foldl_accStep_sum _ _ _ (by show 0 < 2 ^ 32; norm_num)] at hs
  rw [foldl_accStep_xorv] at hx
  rw [foldl_accStep_orv] at ho
  have hS := sum_absWord_eq R hv.1 hmin
  rw [q31] at hsum
  have hS' : ((R.map ofInt32).map absWord).sum < 2147483648 := by omega
  have hs' : s'.sum = ((R.map ofInt32).map absWord).sum := by
    rw [hs]; show (0 + _) % 2 ^ 32 = _
    rw [Nat.zero_add, p32]; omega
  have h1 : s'.orv ≤ s'.sum := by
    rw [ho, hs']
    have := foldl_or_le_add ((R.map ofInt32).map absWord) 0
    rw [Nat.zero_add] at this
    exact this
  have h2 : s'.xorv ≤ s'.orv := by
    rw [hx, ho]
    exact Nat.le_of_testBit
      (foldl_xor_le_foldl_or ((R.map ofInt32).map absWord) 0 0 (fun i hi => hi))
  have h3 : s'.maxv ≤ s'.orv := by
    rw [hm, ho]
    rcases foldl_accStep_maxv_mem (ofInt32 threshold) (R.map ofInt32) ⟨0, 0, 0, 0, 0⟩ with h | h
    · rw [h]; exact Nat.zero_le _
    · exact le_foldl_or_of_mem _ _ _ h
  have t1 := toInt32_cases s'.sum
  have t2 := toInt32_cases s'.orv
  have t3 := toInt32_cases s'.xorv
  have t4 := toInt32_cases s'.maxv
  refine ⟨s', hrun, ?_, ?_, ?_⟩ <;> omega

/-- Witness for C17 on the fixed input of `main`: `14 <= 15` and `12 <= 15 <= 38`. -/
theorem reductions_ordered_witness :
    ValidInput (stateWith (memWith 4096 mainReadings)).mem 4096 8192 mainReadings 5 ∧
      (∃ s', runPass 9 (stateWith (memWith 4096 mainReadings)) 4096 8192
            mainReadings.length 5 = some s' ∧
          toInt32 s'.xorv ≤ toInt32 s'.orv ∧ toInt32 s'.maxv ≤ toInt32 s'.orv ∧
          toInt32 s'.orv ≤ toInt32 s'.sum) :=
  ⟨by decide,
   reductions_ordered (stateWith (memWith 4096 mainReadings)) 4096 8192 mainReadings 5 9
     (by decide) (by decide) (by decide) (by decide)⟩

/-! ## Dependence on magnitudes only -/

theorem absWord_ofInt32_negInt32 (r : Int) :
    absWord (ofInt32 (negInt32 r)) = absWord (ofInt32 r) := by
  unfold negInt32 toInt32 absWord ofInt32
  simp only [p31, p32, q32]
  split_ifs <;> omega

theorem absWord_absWord (w : Nat) (hw : w < 2 ^ 32) : absWord (absWord w) = absWord w := by
  unfold absWord
  simp only [p31, p32] at *
  split_ifs <;> omega

theorem ofInt32_toInt32 (w : Nat) (hw : w < 2 ^ 32) : ofInt32 (toInt32 w) = w := by
  unfold ofInt32 toInt32
  simp only [p31, p32, q32] at *
  split_ifs <;> omega

theorem accStep_absWord (thr : Nat) (a : Acc) (w : Nat) (hw : w < 2 ^ 32) :
    accStep thr a (absWord w) = accStep thr a w := by
  unfold accStep
  rw [absWord_absWord w hw]

theorem foldl_accStep_map_absWord (thr : Nat) (ws : List Nat) (hws : ∀ w ∈ ws, w < 2 ^ 32) :
    ∀ a : Acc, (ws.map absWord).foldl (accStep thr) a = ws.foldl (accStep thr) a := by
  induction ws with
  | nil => intro a; rfl
  | cons w ws ih =>
    intro a
    rw [List.map_cons, List.foldl_cons, List.foldl_cons,
      accStep_absWord thr a w (hws w (List.mem_cons_self _ _)),
      ih (fun x hx => hws x (List.mem_cons_of_mem _ hx))]

theorem foldl_accStep_congr (thr : Nat) (ws ws' : List Nat)
    (h : ws.map absWord = ws'.map absWord) :
    ∀ a : Acc, ws.foldl (accStep thr) a = ws'.foldl (accStep thr) a := by
  induction ws generalizing ws' with
  | nil =>
    intro a
    cases ws' with
    | nil => rfl
    | cons w' ws' => simp at h
  | cons w ws ih =>
    intro a
    cases ws' with
    | nil => simp at h
    | cons w' ws' =>
      rw [List.map_cons, List.map_cons] at h
      have hh := (List.cons.inj h).1
      rw [List.foldl_cons, List.foldl_cons, ih ws' (List.cons.inj h).2]
      have : accStep thr a w = accStep thr a w' := by unfold accStep; rw [hh]
      rw [this]

theorem map_absWord_of_rel (R R' : List Int)
    (hrel : List.Forall₂ (fun r r' => r' = r ∨ r' = negInt32 r) R R') :
    (R'.map ofInt32).map absWord = (R.map ofInt32).map absWord := by
  induction hrel with
  | nil => rfl
  | cons h _ ih =>
    rw [List.map_cons, List.map_cons, List.map_cons, List.map_cons, ih]
    rcases h with rfl | rfl
    · rfl
    · rw [absWord_ofInt32_negInt32]

/-- C18: if each element of `R'` is the corresponding element of `R` or its
32-bit wrapping negation, the pass terminates on both with the same
`transformed` and the same five reductions; and the pass run on the
`transformed` output of the first run returns that same `transformed` and the
same five reductions. -/
theorem magnitudes_only (s0 s0' : State) (readings transformed readings' transformed' : Nat)
    (R R' : List Int) (threshold : Int) (fuel fuel' : Nat)
    (hv : ValidInput s0.mem readings transformed R threshold)
    (hv' : ValidInput s0'.mem readings' transformed' R' threshold)
    (hf : R.length < fuel) (hf' : R'.length < fuel')
    (hrel : List.Forall₂ (fun r r' => r' = r ∨ r' = negInt32 r) R R') :
    ∃ s1 s2, runPass fuel s0 readings transformed R.length threshold = some s1 ∧
      runPass fuel' s0' readings' transformed' R'.length threshold = some s2 ∧
      transformedOf s2 transformed' R'.length = transformedOf s1 transformed R.length ∧
      s2.acc = s1.acc ∧
      ∀ (s0b : State) (readingsb transformedb fuelb : Nat),
        ValidInput s0b.mem readingsb transformedb (transformedOf s1 transformed R.length)
          threshold →
        R.length < fuelb →
        ∃ s3, runPass fuelb s0b readingsb transformedb R.length threshold = some s3 ∧
          transformedOf s3 transformedb R.length = transformedOf s1 transformed R.length ∧
          s3.acc = s1.acc := by
  obtain ⟨s1, hrun1, hmem1, hacc1⟩ :=
    runPass_spec s0 readings transformed R threshold fuel hv hf
  obtain ⟨s2, hrun2, hmem2, hacc2⟩ :=
    runPass_spec s0' readings' transformed' R' threshold fuel' hv' hf'
  have hmap := map_absWord_of_rel R R' hrel
  have hT1 : transformedOf s1 transformed R.length =
      ((R.map ofInt32).map absWord).map toInt32 := by
    unfold transformedOf; rw [readArray_transformed s0 s1 transformed R hmem1]
  have hT2 : transformedOf s2 transformed' R'.length =
      ((R'.map ofInt32).map absWord).map toInt32 := by
    unfold transformedOf; rw [readArray_transformed s0' s2 transformed' R' hmem2]
  have hwlt : ∀ w ∈ R.map ofInt32, w < 2 ^ 32 := by
    intro w hw
    obtain ⟨x, _, rfl⟩ := List.mem_map.mp hw
    exact ofInt32_lt x
  refine ⟨s1, s2, hrun1, hrun2, ?_, ?_, ?_⟩
  · rw [hT1, hT2, hmap]
  · rw [hacc1, hacc2]
    exact foldl_accStep_congr _ _ _ hmap _
  · intro s0b readingsb transformedb fuelb hvb hfb
    have hTl : (transformedOf s1 transformed R.length).length = R.length := by
      unfold transformedOf; rw [List.length_map, readArray_length]
    obtain ⟨s3, hrun3, hmem3, hacc3⟩ := runPass_spec s0b readingsb transformedb
      (transformedOf s1 transformed R.length) threshold fuelb hvb (by rw [hTl]; exact hfb)
    have hwords : (transformedOf s1 transformed R.length).map ofInt32 =
        (R.map ofInt32).map absWord := by
      rw [hT1, List.map_map]
      conv_rhs => rw [← List.map_id ((R.map ofInt32).map absWord)]
      apply List.map_congr_left
      intro t ht
      obtain ⟨w, hw, rfl⟩ := List.mem_map.mp ht
      exact ofInt32_toInt32 _ (absWord_lt w (hwlt w hw))
    have hidem : ((R.map ofInt32).map absWord).map absWord = (R.map ofInt32).map absWord := by
      rw [List.map_map]
      apply List.map_congr_left
      intro w hw
      exact absWord_absWord w (hwlt w hw)
    have hT3 := readArray_transformed s0b s3 transformedb _ hmem3
    rw [hTl] at hrun3 hT3
    refine ⟨s3, hrun3, ?_, ?_⟩
    · rw [hT1]
      unfold transformedOf
      rw [hT3, hwords, hidem]
    · rw [hacc3, hacc1, hwords]
      exact foldl_accStep_map_absWord _ _ hwlt _

/-- Witness for C18 on `[5, -3, INT32_MIN, 0]` and the sign-flipped
`[-5, -3, INT32_MIN, 0]`. -/
theorem magnitudes_only_witness :
    ValidInput (stateWith (memWith 4096 [5, -3, INT32_MIN, 0])).mem 4096 8192
        [5, -3, INT32_MIN, 0] 4 ∧
      ValidInput (stateWith (memWith 256 [-5, -3, INT32_MIN, 0])).mem 256 512
        [-5, -3, INT32_MIN, 0] 4 ∧
      List.Forall₂ (fun r r' => r' = r ∨ r' = negInt32 r)
        [5, -3, INT32_MIN, 0] [-5, -3, INT32_MIN, 0] ∧
      ∃ s1 s2, runPass 5 (stateWith (memWith 4096 [5, -3, INT32_MIN, 0])) 4096 8192
          [5, -3, INT32_MIN, 0].length 4 = some s1 ∧
        runPass 6 (stateWith (memWith 256 [-5, -3, INT32_MIN, 0])) 256 512
          [-5, -3, INT32_MIN, 0].length 4 = some s2 ∧
        transformedOf s2 512 [-5, -3, INT32_MIN, 0].length =
          transformedOf s1 8192 [5, -3, INT32_MIN, 0].length ∧
        s2.acc = s1.acc ∧
        ∀ (s0b : State) (readingsb transformedb fuelb : Nat),
          ValidInput s0b.mem readingsb transformedb
            (transformedOf s1 8192 [5, -3, INT32_MIN, 0].length) 4 →
          [5, -3, INT32_MIN, 0].length < fuelb →
          ∃ s3, runPass fuelb s0b readingsb transformedb [5, -3, INT32_MIN, 0].length 4 =
              some s3 ∧
            transformedOf s3 transformedb [5, -3, INT32_MIN, 0].length =
              transformedOf s1 8192 [5, -3, INT32_MIN, 0].length ∧
            s3.acc = s1.acc :=
  ⟨by decide, by decide, by decide,
   magnitudes_only (stateWith (memWith 4096 [5, -3, INT32_MIN, 0]))
     (stateWith (memWith 256 [-5, -3, INT32_MIN, 0])) 4096 8192 256 512
     [5, -3, INT32_MIN, 0] [-5, -3, INT32_MIN, 0] 4 5 6
     (by decide) (by decide) (by decide) (by decide) (by decide)⟩

end PA04
